import Mathlib

/-!
Verification development for the llcraft repository (Rust).

The Rust sources are shallowly embedded: pure functions become Lean
functions, stateful methods become explicit state-passing functions
(a method on `&mut self` returns the result together with the post-call
state), `usize`/`u64` become `Nat`, fallible code returns `Except`.
JSON payloads (`serde_json::Value`) are embedded as the inductive `Json`
below; numbers are embedded as `Int` (the integer fragment of
`serde_json::Number`; floating-point numbers are outside the embedding).
Object member order is insertion order, as the specification fixes for
the JSON object convention.
-/

namespace LLCraft

/-- Embedding of serde_json::Value. Objects are ordered association lists
(insertion order). Numbers are the integer fragment. -/
inductive Json where
  | null
  | bool (b : Bool)
  | num (n : Int)
  | str (s : String)
  | arr (items : List Json)
  | obj (members : List (String × Json))

/-- Lowercase hex digit, as serde_json uses for control-character escapes. -/
def hexDigitChar (n : Nat) : Char :=
  if n < 10 then Char.ofNat ('0'.toNat + n) else Char.ofNat ('a'.toNat + n - 10)

/-- serde_json string escaping for one character: quote, backslash and the
control characters are escaped; everything else is emitted as is. -/
def escapeChar (c : Char) : String :=
  if c = '"' then "\\\""
  else if c = '\\' then "\\\\"
  else if c = '\x08' then "\\b"
  else if c = '\t' then "\\t"
  else if c = '\n' then "\\n"
  else if c = '\x0c' then "\\f"
  else if c = '\r' then "\\r"
  else if c.toNat < 0x20 then
    "\\u00" ++ String.mk [hexDigitChar (c.toNat / 16), hexDigitChar (c.toNat % 16)]
  else String.singleton c

/-- serde_json escaping of a whole string body. -/
def escapeString (s : String) : String :=
  String.join (s.data.map escapeChar)

mutual
/-- Compact serialization of a Json value, mirroring
serde_json::Value::to_string (no spaces, members in order). -/
def jsonToString : Json → String
  | .null => "null"
  | .bool b => if b then "true" else "false"
  | .num n => toString n
  | .str s => "\"" ++ escapeString s ++ "\""
  | .arr items => "[" ++ jsonArrToString items ++ "]"
  | .obj members => "\x7b" ++ jsonObjToString members ++ "\x7d"

/-- Comma-joined serialization of array elements. -/
def jsonArrToString : List Json → String
  | [] => ""
  | [x] => jsonToString x
  | x :: y :: rest => jsonToString x ++ "," ++ jsonArrToString (y :: rest)

/-- Comma-joined serialization of object members. -/
def jsonObjToString : List (String × Json) → String
  | [] => ""
  | [(k, v)] => "\"" ++ escapeString k ++ "\":" ++ jsonToString v
  | (k, v) :: m :: rest =>
    "\"" ++ escapeString k ++ "\":" ++ jsonToString v ++ "," ++ jsonObjToString (m :: rest)
end

/-- memory.rs estimate_tokens: serialized length in bytes, divided by 4, plus 1. -/
def estimate_tokens (value : Json) : Nat :=
  (jsonToString value).utf8ByteSize / 4 + 1

/-- The error kinds of llcraft-error that the embedded operations produce.
The Rust Error pairs a kind with a message and context; only the kind
discriminates behaviour in the claims, so errors are embedded by kind. -/
inductive ErrorKind where
  | pageNotFound
  | pageOverflow
  | stackOverflow
  | stackUnderflow
  | parseFailed
deriving DecidableEq

-- ==========================================================================
-- stack.rs
-- ==========================================================================

/-- stack.rs MAX_STACK_SIZE. -/
def MAX_STACK_SIZE : Nat := 256

/-- stack.rs Stack: a vector of JSON values, bottom first. -/
structure Stack where
  data : List Json

namespace Stack

/-- Stack::new (capacity hints have no observable effect). -/
def new : Stack := ⟨[]⟩

/-- Vec::swap of two in-bounds indices. -/
def vecSwap (l : List Json) (i j : Nat) : List Json :=
  (l.set i (l.getD j .null)).set j (l.getD i .null)

/-- Slice rotate_right(1): the last element moves to the front. -/
def rotateRight1 (l : List Json) : List Json :=
  match l.getLast? with
  | some x => x :: l.dropLast
  | none => l

/-- Stack::push. -/
def push (st : Stack) (value : Json) : Except ErrorKind Unit × Stack :=
  if st.data.length ≥ MAX_STACK_SIZE then (.error .stackOverflow, st)
  else (.ok (), ⟨st.data ++ [value]⟩)

/-- Stack::pop. -/
def pop (st : Stack) : Except ErrorKind Json × Stack :=
  match st.data.getLast? with
  | some v => (.ok v, ⟨st.data.dropLast⟩)
  | none => (.error .stackUnderflow, st)

/-- Stack::peek (borrowing method: the stack is unchanged). -/
def peek (st : Stack) : Except ErrorKind Json × Stack :=
  match st.data.getLast? with
  | some v => (.ok v, st)
  | none => (.error .stackUnderflow, st)

/-- Stack::peek_at. -/
def peek_at (st : Stack) (depth : Nat) : Except ErrorKind Json × Stack :=
  if depth ≥ st.data.length then (.error .stackUnderflow, st)
  else (.ok (st.data.getD (st.data.length - 1 - depth) .null), st)

/-- Stack::set_at. -/
def set_at (st : Stack) (depth : Nat) (value : Json) : Except ErrorKind Unit × Stack :=
  if depth ≥ st.data.length then (.error .stackUnderflow, st)
  else (.ok (), ⟨st.data.set (st.data.length - 1 - depth) value⟩)

/-- Stack::dup: peek then push. -/
def dup (st : Stack) : Except ErrorKind Unit × Stack :=
  match st.peek with
  | (.ok v, _) => st.push v
  | (.error e, _) => (.error e, st)

/-- Stack::dup_n: peek_at n then push. -/
def dup_n (st : Stack) (n : Nat) : Except ErrorKind Unit × Stack :=
  match st.peek_at n with
  | (.ok v, _) => st.push v
  | (.error e, _) => (.error e, st)

/-- Stack::swap. -/
def swap (st : Stack) : Except ErrorKind Unit × Stack :=
  if st.data.length < 2 then (.error .stackUnderflow, st)
  else (.ok (), ⟨vecSwap st.data (st.data.length - 1) (st.data.length - 2)⟩)

/-- Stack::swap_n. -/
def swap_n (st : Stack) (n : Nat) : Except ErrorKind Unit × Stack :=
  if n = 0 ∨ st.data.length ≤ n then (.error .stackUnderflow, st)
  else (.ok (), ⟨vecSwap st.data (st.data.length - 1) (st.data.length - 1 - n)⟩)

/-- Stack::rot. -/
def rot (st : Stack) (n : Nat) : Except ErrorKind Unit × Stack :=
  if n > st.data.length ∨ n = 0 then (.error .stackUnderflow, st)
  else
    (.ok (), ⟨st.data.take (st.data.length - n)
      ++ rotateRight1 (st.data.drop (st.data.length - n))⟩)

/-- Stack::drop_n: truncate to len - n. -/
def drop_n (st : Stack) (n : Nat) : Except ErrorKind Unit × Stack :=
  if n > st.data.length then (.error .stackUnderflow, st)
  else (.ok (), ⟨st.data.take (st.data.length - n)⟩)

/-- Stack::clear. -/
def clear (_st : Stack) : Stack := ⟨[]⟩

end Stack

/-- C8. Stack failure conditions: push overflows exactly at depth 256; pop and
peek underflow exactly on the empty stack; peek_at d underflows exactly when
d is at least the current length; in every other case the operation
succeeds. Stated for stacks within the capacity bound, which every stack
reachable through push satisfies. -/
theorem stack_failure_conditions (st : Stack) (h : st.data.length ≤ MAX_STACK_SIZE)
    (v : Json) (d : Nat) :
    ((st.push v).1 = .error .stackOverflow ↔ st.data.length = MAX_STACK_SIZE)
    ∧ ((∃ u, (st.push v).1 = .ok u) ↔ st.data.length < MAX_STACK_SIZE)
    ∧ ((st.pop).1 = .error .stackUnderflow ↔ st.data = [])
    ∧ ((∃ r, (st.pop).1 = .ok r) ↔ st.data ≠ [])
    ∧ ((st.peek).1 = .error .stackUnderflow ↔ st.data = [])
    ∧ ((∃ r, (st.peek).1 = .ok r) ↔ st.data ≠ [])
    ∧ ((st.peek_at d).1 = .error .stackUnderflow ↔ d ≥ st.data.length)
    ∧ ((∃ r, (st.peek_at d).1 = .ok r) ↔ d < st.data.length) := by
  refine ⟨?_, ?_, ?_, ?_, ?_, ?_, ?_, ?_⟩
  · unfold Stack.push
    split
    case isTrue hc =>
      simp only [true_iff]
      omega
    case isFalse hc =>
      constructor
      · intro hx
        exact absurd hx (by simp)
      · intro hx
        omega
  · unfold Stack.push
    split
    case isTrue hc =>
      constructor
      · rintro ⟨u, hu⟩
        exact absurd hu (by simp)
      · intro hx
        omega
    case isFalse hc =>
      constructor
      · intro _
        omega
      · intro _
        exact ⟨(), rfl⟩
  · unfold Stack.pop
    rcases hd : st.data.getLast? with _ | x
    · simp [List.getLast?_eq_none_iff.mp hd]
    · have : st.data ≠ [] := by
        intro hnil
        rw [hnil] at hd
        simp at hd
      simp [this]
  · unfold Stack.pop
    rcases hd : st.data.getLast? with _ | x
    · simp [List.getLast?_eq_none_iff.mp hd]
    · have : st.data ≠ [] := by
        intro hnil
        rw [hnil] at hd
        simp at hd
      simp [this]
  · unfold Stack.peek
    rcases hd : st.data.getLast? with _ | x
    · simp [List.getLast?_eq_none_iff.mp hd]
    · have : st.data ≠ [] := by
        intro hnil
        rw [hnil] at hd
        simp at hd
      simp [this]
  · unfold Stack.peek
    rcases hd : st.data.getLast? with _ | x
    · simp [List.getLast?_eq_none_iff.mp hd]
    · have : st.data ≠ [] := by
        intro hnil
        rw [hnil] at hd
        simp at hd
      simp [this]
  · unfold Stack.peek_at
    split
    case isTrue hc =>
      simp only [true_iff]
      exact hc
    case isFalse hc =>
      constructor
      · intro hx
        exact absurd hx (by simp)
      · intro hx
        omega
  · unfold Stack.peek_at
    split
    case isTrue hc =>
      constructor
      · rintro ⟨r, hr⟩
        exact absurd hr (by simp)
      · intro hx
        omega
    case isFalse hc =>
      constructor
      · intro _
        omega
      · intro _
        exact ⟨_, rfl⟩

/-- Witness for C8 at the empty stack: pop reports underflow. -/
theorem stack_failure_conditions_witness :
    ((Stack.mk []).pop.1 = .error .stackUnderflow ↔ (Stack.mk []).data = []) :=
  (stack_failure_conditions (Stack.mk []) (by decide) Json.null 0).2.2.1

/-- C10. Atomicity of fallible stack operations: whenever push, pop, peek_at,
set_at, dup, dup_n, swap, swap_n, rot or drop_n returns an error, the
post-call stack equals the pre-call stack. -/
theorem stack_error_atomicity (st : Stack) (v : Json) (n : Nat) :
    ((st.push v).1.isOk = false → (st.push v).2 = st)
    ∧ ((st.pop).1.isOk = false → (st.pop).2 = st)
    ∧ ((st.peek_at n).1.isOk = false → (st.peek_at n).2 = st)
    ∧ ((st.set_at n v).1.isOk = false → (st.set_at n v).2 = st)
    ∧ ((st.dup).1.isOk = false → (st.dup).2 = st)
    ∧ ((st.dup_n n).1.isOk = false → (st.dup_n n).2 = st)
    ∧ ((st.swap).1.isOk = false → (st.swap).2 = st)
    ∧ ((st.swap_n n).1.isOk = false → (st.swap_n n).2 = st)
    ∧ ((st.rot n).1.isOk = false → (st.rot n).2 = st)
    ∧ ((st.drop_n n).1.isOk = false → (st.drop_n n).2 = st) := by
  refine ⟨?_, ?_, ?_, ?_, ?_, ?_, ?_, ?_, ?_, ?_⟩
  · unfold Stack.push
    split <;> simp [Except.isOk, Except.toBool]
  · unfold Stack.pop
    rcases st.data.getLast? with _ | x <;> simp [Except.isOk, Except.toBool]
  · unfold Stack.peek_at
    split <;> simp [Except.isOk, Except.toBool]
  · unfold Stack.set_at
    split <;> simp [Except.isOk, Except.toBool]
  · unfold Stack.dup Stack.peek Stack.push
    rcases st.data.getLast? with _ | x
    · simp [Except.isOk, Except.toBool]
    · split
      · split <;> simp [Except.isOk, Except.toBool]
      · simp [Except.isOk, Except.toBool]
  · unfold Stack.dup_n Stack.peek_at Stack.push
    split
    · split <;> simp [Except.isOk, Except.toBool]
    · simp [Except.isOk, Except.toBool]
  · unfold Stack.swap
    split <;> simp [Except.isOk, Except.toBool]
  · unfold Stack.swap_n
    split <;> simp [Except.isOk, Except.toBool]
  · unfold Stack.rot
    split <;> simp [Except.isOk, Except.toBool]
  · unfold Stack.drop_n
    split <;> simp [Except.isOk, Except.toBool]

/-- Witness for C10: pop on the empty stack fails and leaves it empty. -/
theorem stack_error_atomicity_witness : ((Stack.mk []).pop).2 = Stack.mk [] :=
  (stack_error_atomicity (Stack.mk []) Json.null 0).2.1 (by rfl)

-- ==========================================================================
-- memory.rs
-- ==========================================================================

/-- memory.rs MAX_PAGES. -/
def MAX_PAGES : Nat := 1024

/-- memory.rs MemoryPage. Timestamps are passed in explicitly where the Rust
code reads the wall clock. -/
structure MemoryPage where
  id : String
  content : Json
  size_tokens : Nat
  dirty : Bool
  label : Option String
  created_at : Nat
  accessed_at : Nat

namespace MemoryPage

/-- MemoryPage::new. -/
def new (id : String) (content : Json) (now : Nat) : MemoryPage :=
  { id := id
    content := content
    size_tokens := estimate_tokens content
    dirty := true
    label := none
    created_at := now
    accessed_at := now }

/-- MemoryPage::empty. -/
def empty (id : String) (now : Nat) : MemoryPage := new id .null now

/-- MemoryPage::set_content. -/
def set_content (p : MemoryPage) (content : Json) (now : Nat) : MemoryPage :=
  { p with
    content := content
    size_tokens := estimate_tokens content
    dirty := true
    accessed_at := now }

end MemoryPage

/-- memory.rs Memory. The HashMap of pages is embedded as a list keyed by
page id (lookups go through the id; insertion of an existing key replaces
in place, of a fresh key appends). -/
structure Memory where
  pages : List MemoryPage
  total_tokens : Nat
  max_tokens : Nat

namespace Memory

/-- Memory::new. -/
def new : Memory := ⟨[], 0, 128000⟩

/-- HashMap::get by page id. -/
def findPage (m : Memory) (id : String) : Option MemoryPage :=
  m.pages.find? (fun p => p.id = id)

/-- HashMap::insert: replace the binding with the same key in place, or
append a fresh binding. -/
def insertPage (ps : List MemoryPage) (pg : MemoryPage) : List MemoryPage :=
  if ps.any (fun p => p.id = pg.id) then
    ps.map (fun p => if p.id = pg.id then pg else p)
  else ps ++ [pg]

/-- Memory::store. -/
def store (m : Memory) (id : String) (content : Json) (now : Nat) :
    Except ErrorKind Memory :=
  match m.findPage id with
  | some page =>
    let old_tokens := page.size_tokens
    let page' := page.set_content content now
    .ok { m with
          pages := insertPage m.pages page'
          total_tokens := m.total_tokens - old_tokens + page'.size_tokens }
  | none =>
    if m.pages.length ≥ MAX_PAGES then .error .pageOverflow
    else
      let page := MemoryPage.new id content now
      .ok { m with
            total_tokens := m.total_tokens + page.size_tokens
            pages := m.pages ++ [page] }

/-- Memory::store_page. -/
def store_page (m : Memory) (page : MemoryPage) : Except ErrorKind Memory :=
  if ¬ m.pages.any (fun p => p.id = page.id) ∧ m.pages.length ≥ MAX_PAGES then
    .error .pageOverflow
  else
    let old_tokens := ((m.findPage page.id).map (fun p => p.size_tokens)).getD 0
    .ok { m with
          total_tokens := m.total_tokens - old_tokens + page.size_tokens
          pages := insertPage m.pages page }

/-- Memory::alloc: the fresh id is page_{current number of pages}. -/
def alloc (m : Memory) (label : Option String) (now : Nat) :
    Except ErrorKind (String × Memory) :=
  if m.pages.length ≥ MAX_PAGES then .error .pageOverflow
  else
    let id := "page_" ++ toString m.pages.length
    let page := { MemoryPage.empty id now with label := label }
    .ok (id, { m with
               total_tokens := m.total_tokens + page.size_tokens
               pages := insertPage m.pages page })

/-- Memory::free (the token subtraction saturates, as in the source). -/
def free (m : Memory) (id : String) : Except ErrorKind Memory :=
  match m.findPage id with
  | none => .error .pageNotFound
  | some page =>
    .ok { m with
          pages := m.pages.eraseP (fun p => p.id = id)
          total_tokens := m.total_tokens - page.size_tokens }

/-- Memory::copy. -/
def copy (m : Memory) (src dst : String) (now : Nat) : Except ErrorKind Memory :=
  match m.findPage src with
  | none => .error .pageNotFound
  | some page => m.store dst page.content now

/-- Memory::clear. -/
def clear (m : Memory) : Memory := { m with pages := [], total_tokens := 0 }

/-- The earlier of two candidate minimum pages: a strictly smaller
accessed_at on the right wins, otherwise the left (earlier) one stays. -/
def minPick (p : MemoryPage) : Option MemoryPage → MemoryPage
  | none => p
  | some q => if q.accessed_at < p.accessed_at then q else p

/-- Iterator::min_by_key on accessed_at: the first of the equally minimal
elements wins; list order stands in for the map's iteration order. -/
def min_by_accessed : List MemoryPage → Option MemoryPage
  | [] => none
  | p :: rest => some (minPick p (min_by_accessed rest))

/-- One fuelled unfolding of the evict_to_limit loop; each successful free
removes a page, so the page count bounds the iterations. -/
def evictF : Nat → Memory → Nat → List String × Memory
  | 0, m, _ => ([], m)
  | fuel+1, m, target =>
    if m.total_tokens > target ∧ ¬ m.pages.isEmpty then
      match min_by_accessed m.pages with
      | some p =>
        match m.free p.id with
        | .ok m' => (p.id :: (evictF fuel m' target).1, (evictF fuel m' target).2)
        | .error _ => evictF fuel m target
      | none => ([], m)
    else ([], m)

/-- Memory::evict_to_limit. -/
def evict_to_limit (m : Memory) (target_tokens : Nat) : List String × Memory :=
  evictF m.pages.length m target_tokens

/-- Sum of the size_tokens of a list of pages. -/
def sumTokens (l : List MemoryPage) : Nat := (l.map (fun p => p.size_tokens)).sum

end Memory

/-- The Memory state after new, alloc, alloc, free page_0, alloc: the last
alloc generates the id page_1 (one page is present), which collides with
the page already named page_1. -/
def allocCollisionTrace : Except ErrorKind Memory := do
  let r1 ← Memory.new.alloc none 0
  let r2 ← r1.2.alloc none 0
  let m3 ← r2.2.free "page_0"
  let r4 ← m3.alloc none 0
  pure r4.2

/-- C1 (code bug). The token-accounting invariant is violated by alloc when
its generated id page_{n} collides with an existing page: after
alloc, alloc, free page_0, alloc, the registered total is 4 tokens, but the
pages in the map sum to 2 tokens. The colliding insert replaces the old
page without deducting its size_tokens from the running total. -/
theorem alloc_collision_breaks_token_invariant :
    (allocCollisionTrace.map fun m => (m.total_tokens, Memory.sumTokens m.pages))
      = .ok (4, 2) ∧ (4 : Nat) ≠ 2 :=
  ⟨rfl, by decide⟩

-- ==========================================================================
-- Eviction order (claim C6)
-- ==========================================================================

namespace Memory

/-- Selection of the pages in ascending accessed_at order (leftmost first
among ties), fuelled by the page count. This is the ordering the
specification describes for eviction; lruOrder_sorted and lruOrder_perm
below justify the name. -/
def lruSortF : Nat → List MemoryPage → List MemoryPage
  | 0, _ => []
  | _+1, [] => []
  | fuel+1, a :: rest =>
    minPick a (min_by_accessed rest) ::
      lruSortF fuel ((a :: rest).eraseP
        (fun q => q.id = (minPick a (min_by_accessed rest)).id))

/-- The pages in ascending accessed_at order. -/
def lruOrder (l : List MemoryPage) : List MemoryPage := lruSortF l.length l

theorem minPick_mem (a : MemoryPage) (rest : List MemoryPage)
    (hrec : ∀ q, min_by_accessed rest = some q → q ∈ rest) :
    minPick a (min_by_accessed rest) ∈ a :: rest := by
  rcases hm : min_by_accessed rest with _ | q
  · simp [minPick]
  · simp only [minPick]
    split
    · exact List.mem_cons_of_mem _ (hrec q hm)
    · simp

theorem min_by_accessed_mem : ∀ {l : List MemoryPage} {p : MemoryPage},
    min_by_accessed l = some p → p ∈ l := by
  intro l
  induction l with
  | nil => intro p h; simp [min_by_accessed] at h
  | cons a rest ih =>
    intro p h
    rw [min_by_accessed] at h
    have hp := Option.some.inj h
    rw [← hp]
    exact minPick_mem a rest (fun q hq => ih hq)

theorem min_by_accessed_eq_none {l : List MemoryPage} :
    min_by_accessed l = none ↔ l = [] := by
  cases l <;> simp [min_by_accessed]

theorem min_by_accessed_le : ∀ {l : List MemoryPage} {p : MemoryPage},
    min_by_accessed l = some p → ∀ q ∈ l, p.accessed_at ≤ q.accessed_at := by
  intro l
  induction l with
  | nil => intro p h; simp [min_by_accessed] at h
  | cons a rest ih =>
    intro p h q hq
    rw [min_by_accessed] at h
    have hp := Option.some.inj h
    rcases List.mem_cons.mp hq with rfl | hq'
    · rcases hm : min_by_accessed rest with _ | r <;> rw [hm] at hp
      · simp only [minPick] at hp
        rw [← hp]
      · simp only [minPick] at hp
        split at hp
        · next hlt =>
          rw [← hp]
          exact le_of_lt hlt
        · rw [← hp]
    · rcases hm : min_by_accessed rest with _ | r <;> rw [hm] at hp
      · rw [min_by_accessed_eq_none.mp hm] at hq'
        simp at hq'
      · simp only [minPick] at hp
        split at hp
        · rw [← hp]
          exact ih hm q hq'
        · next hlt =>
          rw [← hp]
          exact le_trans (Nat.le_of_not_lt hlt) (ih hm q hq')

theorem find?_id_of_nodup : ∀ {l : List MemoryPage} {p : MemoryPage},
    (l.map (fun q => q.id)).Nodup → p ∈ l →
    l.find? (fun q => q.id = p.id) = some p := by
  intro l
  induction l with
  | nil => intro p _ hp; simp at hp
  | cons a rest ih =>
    intro p hnd hp
    by_cases ha : a.id = p.id
    · have hap : a = p := by
        rcases List.mem_cons.mp hp with h1 | h1
        · exact h1.symm
        · exfalso
          have h2 : p.id ∈ rest.map (fun q => q.id) := List.mem_map_of_mem _ h1
          rw [← ha] at h2
          exact (List.nodup_cons.mp hnd).1 h2
      rw [List.find?_cons_of_pos _ (by simp [ha]), hap]
    · rw [List.find?_cons_of_neg _ (by simp [ha])]
      have hpr : p ∈ rest := by
        rcases List.mem_cons.mp hp with h1 | h1
        · exact absurd (by rw [h1]) ha
        · exact h1
      exact ih (List.nodup_cons.mp hnd).2 hpr

/-- When ids are distinct, erasing by the id of a member splits the list
around exactly that member. -/
theorem eraseP_id_of_nodup {l : List MemoryPage} {p : MemoryPage}
    (hnd : (l.map (fun q => q.id)).Nodup) (hp : p ∈ l) :
    ∃ l₁ l₂, l = l₁ ++ p :: l₂ ∧ l.eraseP (fun q => q.id = p.id) = l₁ ++ l₂ := by
  obtain ⟨b, l₁, l₂, hl₁, hpb, hl, he⟩ :=
    List.exists_of_eraseP (p := fun q => q.id = p.id) hp (by simp)
  have hbp : b = p := by
    simp only [decide_eq_true_eq] at hpb
    rcases List.mem_append.mp (hl ▸ hp) with h1 | h2
    · exact absurd (by simp) (hl₁ p h1)
    · rcases List.mem_cons.mp h2 with h3 | h3
      · exact h3.symm
      · exfalso
        rw [hl] at hnd
        simp only [List.map_append, List.map_cons] at hnd
        have hnd2 := (List.nodup_append.mp hnd).2.1
        have hin : p.id ∈ l₂.map (fun q => q.id) := List.mem_map_of_mem _ h3
        rw [← hpb] at hin
        exact (List.nodup_cons.mp hnd2).1 hin
  subst hbp
  exact ⟨l₁, l₂, hl, he⟩

theorem sumTokens_append (l₁ l₂ : List MemoryPage) :
    sumTokens (l₁ ++ l₂) = sumTokens l₁ + sumTokens l₂ := by
  simp [sumTokens]

theorem sumTokens_cons (p : MemoryPage) (l : List MemoryPage) :
    sumTokens (p :: l) = p.size_tokens + sumTokens l := by
  simp [sumTokens]

/-- If page ids are distinct, erasing by the id of a member removes exactly
that member: the token sum drops by its size, the id list stays distinct,
and the length drops by one. -/
theorem eraseP_id_spec {l : List MemoryPage} {p : MemoryPage}
    (hnd : (l.map (fun q => q.id)).Nodup) (hp : p ∈ l) :
    sumTokens (l.eraseP (fun q => q.id = p.id)) = sumTokens l - p.size_tokens
    ∧ p.size_tokens ≤ sumTokens l
    ∧ ((l.eraseP (fun q => q.id = p.id)).map (fun q => q.id)).Nodup
    ∧ (l.eraseP (fun q => q.id = p.id)).length = l.length - 1 := by
  obtain ⟨l₁, l₂, hl, he⟩ := eraseP_id_of_nodup hnd hp
  have hsub : (l₁ ++ l₂).Sublist l := by
    rw [hl]
    exact (List.sublist_cons_self p l₂).append_left l₁
  refine ⟨?_, ?_, ?_, ?_⟩
  · rw [he, hl, sumTokens_append, sumTokens_append, sumTokens_cons]
    omega
  · rw [hl, sumTokens_append, sumTokens_cons]
    omega
  · rw [he]
    exact (hsub.map (fun q => q.id)).nodup hnd
  · rw [he, hl]
    simp

/-- Memory::free at the id of a member page, under distinct ids. -/
theorem free_of_mem {m : Memory} {p : MemoryPage}
    (hnd : (m.pages.map (fun q => q.id)).Nodup) (hp : p ∈ m.pages) :
    m.free p.id = .ok { m with
      pages := m.pages.eraseP (fun q => q.id = p.id)
      total_tokens := m.total_tokens - p.size_tokens } := by
  unfold free findPage
  rw [find?_id_of_nodup hnd hp]

/-- Fuelled form of the C6 statement, by induction on the fuel. -/
theorem evictF_spec : ∀ (fuel : Nat) (m : Memory) (target : Nat),
    m.pages.length ≤ fuel →
    m.total_tokens = sumTokens m.pages →
    (m.pages.map (fun p => p.id)).Nodup →
    ∃ n, (evictF fuel m target).1 = ((lruOrder m.pages).take n).map (fun p => p.id)
      ∧ (evictF fuel m target).2.total_tokens ≤ target
      ∧ m.total_tokens - sumTokens ((lruOrder m.pages).take n) ≤ target
      ∧ ∀ k < n, target < m.total_tokens - sumTokens ((lruOrder m.pages).take k) := by
  intro fuel
  induction fuel with
  | zero =>
    intro m target hlen hinv hnd
    have hnil : m.pages = [] := List.eq_nil_of_length_eq_zero (Nat.le_zero.mp hlen)
    refine ⟨0, by simp [evictF], ?_, ?_, by omega⟩
    · simp [evictF, hinv, hnil, sumTokens]
    · simp [hinv, hnil, sumTokens]
  | succ fuel ih =>
    intro m target hlen hinv hnd
    by_cases hgt : m.total_tokens ≤ target
    · have hcond : ¬ (m.total_tokens > target ∧ ¬ m.pages.isEmpty = true) := by
        intro hc
        omega
      refine ⟨0, ?_, ?_, by simpa using hgt, by omega⟩
      · rw [evictF, if_neg hcond]
        simp
      · rw [evictF, if_neg hcond]
        exact hgt
    · push_neg at hgt
      obtain ⟨a, rest, hp⟩ : ∃ a rest, m.pages = a :: rest := by
        rcases hps : m.pages with _ | ⟨x, xs⟩
        · exfalso
          rw [hps] at hinv
          simp [sumTokens] at hinv
          omega
        · exact ⟨x, xs, rfl⟩
      have hne : ¬ m.pages.isEmpty = true := by simp [hp]
      have hcond : m.total_tokens > target ∧ ¬ m.pages.isEmpty = true := ⟨hgt, hne⟩
      rcases hm : min_by_accessed m.pages with _ | p
      · rw [min_by_accessed_eq_none.mp hm] at hp
        exact absurd hp (by simp)
      have hpmem : p ∈ m.pages := min_by_accessed_mem hm
      obtain ⟨hsum, hple, hnd', hlen'⟩ := eraseP_id_spec hnd hpmem
      set m' : Memory := { m with
        pages := m.pages.eraseP (fun q => q.id = p.id)
        total_tokens := m.total_tokens - p.size_tokens } with hm'
      have hfree : m.free p.id = .ok m' := free_of_mem hnd hpmem
      have hlenpos : 1 ≤ m.pages.length := by
        rw [hp]
        simp
      have hstep : evictF (fuel+1) m target
          = (p.id :: (evictF fuel m' target).1, (evictF fuel m' target).2) := by
        rw [evictF, if_pos hcond, hm]
        show (match m.free p.id with
              | .ok m2 => (p.id :: (evictF fuel m2 target).1, (evictF fuel m2 target).2)
              | .error _ => evictF fuel m target) = _
        rw [hfree]
      have hinv' : m'.total_tokens = sumTokens m'.pages := by
        rw [hm']
        simp only
        rw [hsum, hinv]
      have hlen2 : m'.pages.length ≤ fuel := by
        rw [hm']
        simp only
        omega
      obtain ⟨n', h1, h2, h3, h4⟩ := ih m' target hlen2 hinv' hnd'
      have hminpick : minPick a (min_by_accessed rest) = p := by
        rw [hp, min_by_accessed] at hm
        exact Option.some.inj hm
      have hlru : lruOrder m.pages = p :: lruOrder m'.pages := by
        have hlenerase : (m.pages.eraseP (fun q => q.id = p.id)).length = rest.length := by
          rw [hp] at hlen' ⊢
          simp at hlen' ⊢
          omega
        rw [hm', hp]
        simp only [lruOrder, List.length_cons]
        rw [lruSortF, hminpick]
        rw [hp] at hlenerase
        rw [hlenerase]
      refine ⟨n' + 1, ?_, ?_, ?_, ?_⟩
      · rw [hstep, hlru]
        simp only [List.take_succ_cons, List.map_cons]
        rw [h1]
      · rw [hstep]
        exact h2
      · rw [hlru]
        simp only [List.take_succ_cons]
        rw [sumTokens_cons, ← Nat.sub_sub]
        have hmt : m.total_tokens - p.size_tokens = m'.total_tokens := by rw [hm']
        rw [hmt]
        exact h3
      · intro k hk
        rcases k with _ | j
        · simpa [sumTokens] using hgt
        · rw [hlru]
          simp only [List.take_succ_cons]
          rw [sumTokens_cons, ← Nat.sub_sub]
          have hmt : m.total_tokens - p.size_tokens = m'.total_tokens := by rw [hm']
          rw [hmt]
          exact h4 j (by omega)

/-- Elements of the selection sort come from the input list. -/
theorem mem_lruSortF : ∀ {fuel : Nat} {l : List MemoryPage} {q : MemoryPage},
    q ∈ lruSortF fuel l → q ∈ l := by
  intro fuel
  induction fuel with
  | zero => intro l q h; simp [lruSortF] at h
  | succ fuel ih =>
    intro l q h
    rcases l with _ | ⟨a, rest⟩
    · simp [lruSortF] at h
    · rw [lruSortF] at h
      rcases List.mem_cons.mp h with h1 | h1
      · rw [h1]
        exact minPick_mem a rest (fun r hr => min_by_accessed_mem hr)
      · exact (List.eraseP_sublist _).mem (ih h1)

/-- lruOrder is sorted by ascending accessed_at. -/
theorem lruOrder_sorted (l : List MemoryPage) :
    (lruOrder l).Pairwise (fun a b => a.accessed_at ≤ b.accessed_at) := by
  suffices h : ∀ fuel (l : List MemoryPage),
      (lruSortF fuel l).Pairwise (fun a b => a.accessed_at ≤ b.accessed_at) from h _ l
  intro fuel
  induction fuel with
  | zero => intro l; simp [lruSortF]
  | succ fuel ih =>
    intro l
    rcases l with _ | ⟨a, rest⟩
    · simp [lruSortF]
    · rw [lruSortF]
      refine List.Pairwise.cons ?_ (ih _)
      intro q hq
      have hql : q ∈ a :: rest := (List.eraseP_sublist _).mem (mem_lruSortF hq)
      exact min_by_accessed_le (l := a :: rest) rfl q hql

/-- Under distinct ids, lruOrder is a permutation of the pages. -/
theorem lruOrder_perm : ∀ (l : List MemoryPage),
    (l.map (fun q => q.id)).Nodup → (lruOrder l).Perm l := by
  suffices h : ∀ fuel (l : List MemoryPage), l.length ≤ fuel →
      (l.map (fun q => q.id)).Nodup → (lruSortF fuel l).Perm l by
    intro l hnd
    exact h l.length l (le_refl _) hnd
  intro fuel
  induction fuel with
  | zero =>
    intro l hlen _
    have : l = [] := List.eq_nil_of_length_eq_zero (Nat.le_zero.mp hlen)
    simp [this, lruSortF]
  | succ fuel ih =>
    intro l hlen hnd
    rcases l with _ | ⟨a, rest⟩
    · simp [lruSortF]
    · rw [lruSortF]
      have hpmem : minPick a (min_by_accessed rest) ∈ a :: rest :=
        minPick_mem a rest (fun r hr => min_by_accessed_mem hr)
      obtain ⟨l₁, l₂, hl, he⟩ := eraseP_id_of_nodup hnd hpmem
      obtain ⟨_, _, hnd', hlen'⟩ := eraseP_id_spec hnd hpmem
      have hperm := ih ((a :: rest).eraseP
        (fun q => q.id = (minPick a (min_by_accessed rest)).id))
        (by simp at hlen' hlen ⊢; omega) hnd'
      refine List.Perm.trans (List.Perm.cons _ hperm) ?_
      rw [he, hl]
      exact List.perm_middle.symm

end Memory

/-- C6. evict_to_limit returns exactly the shortest prefix, in ascending
accessed_at order, whose removal brings total_tokens to at most the target,
and the resulting memory is at or under the target. Stated for memories
satisfying the token-accounting invariant with distinct page ids, which the
HashMap guarantees in the source. -/
theorem evict_to_limit_exact_lru_prefix (m : Memory) (target : Nat)
    (hinv : m.total_tokens = Memory.sumTokens m.pages)
    (hnd : (m.pages.map (fun p => p.id)).Nodup) :
    ∃ n, (m.evict_to_limit target).1
        = ((Memory.lruOrder m.pages).take n).map (fun p => p.id)
      ∧ (m.evict_to_limit target).2.total_tokens ≤ target
      ∧ m.total_tokens - Memory.sumTokens ((Memory.lruOrder m.pages).take n) ≤ target
      ∧ ∀ k < n,
          target < m.total_tokens - Memory.sumTokens ((Memory.lruOrder m.pages).take k) :=
  Memory.evictF_spec m.pages.length m target (le_refl _) hinv hnd

/-- A two-page memory used to witness C6. -/
def evictDemoMemory : Memory :=
  ⟨[{ id := "a", content := .null, size_tokens := 3, dirty := false, label := none,
      created_at := 0, accessed_at := 5 },
    { id := "b", content := .null, size_tokens := 4, dirty := false, label := none,
      created_at := 0, accessed_at := 2 }], 7, 128000⟩

/-- Witness for C6 on a concrete two-page memory. -/
theorem evict_to_limit_exact_lru_prefix_witness :
    ∃ n, (evictDemoMemory.evict_to_limit 4).1
        = ((Memory.lruOrder evictDemoMemory.pages).take n).map (fun p => p.id)
      ∧ (evictDemoMemory.evict_to_limit 4).2.total_tokens ≤ 4
      ∧ evictDemoMemory.total_tokens
          - Memory.sumTokens ((Memory.lruOrder evictDemoMemory.pages).take n) ≤ 4
      ∧ ∀ k < n, 4 < evictDemoMemory.total_tokens
          - Memory.sumTokens ((Memory.lruOrder evictDemoMemory.pages).take k) :=
  evict_to_limit_exact_lru_prefix evictDemoMemory 4 (by rfl) (by decide)

-- ==========================================================================
-- storage.rs (claim C9)
-- ==========================================================================

/-- storage.rs Storage over the in-memory backend (MemoryStorage): the
backend map of keys to values, plus the optional namespace. The field
nspace embeds the Rust field named namespace (a Lean keyword). -/
structure Storage where
  data : List (String × Json)
  nspace : Option String

namespace Storage

/-- Assoc-list insert standing in for HashMap::insert. -/
def insertKV (l : List (String × Json)) (key : String) (value : Json) :
    List (String × Json) :=
  if l.any (fun kv => kv.1 = key) then
    l.map (fun kv => if kv.1 = key then (key, value) else kv)
  else l ++ [(key, value)]

/-- Storage::memory. -/
def memory : Storage := ⟨[], none⟩

/-- Storage::with_namespace: sets the namespace, with no validation. -/
def with_namespace (st : Storage) (ns : String) : Storage :=
  { st with nspace := some ns }

/-- Storage::full_key. -/
def full_key (st : Storage) (key : String) : String :=
  match st.nspace with
  | some ns => ns ++ ":" ++ key
  | none => key

/-- StorageBackend::set on the in-memory backend. -/
def backendSet (st : Storage) (key : String) (value : Json) : Storage :=
  { st with data := insertKV st.data key value }

/-- Storage::set (namespaced). -/
def set (st : Storage) (key : String) (value : Json) : Storage :=
  st.backendSet (st.full_key key) value

/-- Storage::checkpoint: writes the raw backend key _checkpoint:{name},
bypassing the namespace. -/
def checkpoint (st : Storage) (name : String) (value : Json) : Storage :=
  st.backendSet ("_checkpoint:" ++ name) value

end Storage

/-- C9 counterexample. with_namespace performs no validation: the namespace
_checkpoint is accepted rather than rejected, and a user write under it
lands on exactly the backend key that Storage::checkpoint writes. -/
theorem checkpoint_namespace_not_rejected :
    (Storage.memory.with_namespace "_checkpoint").nspace = some "_checkpoint"
    ∧ (Storage.memory.with_namespace "_checkpoint").full_key "x" = "_checkpoint:x"
    ∧ ((Storage.memory.with_namespace "_checkpoint").set "x" .null).data
        = (Storage.memory.checkpoint "x" .null).data :=
  ⟨rfl, rfl, rfl⟩

/-- C9 as amended. with_namespace accepts every namespace (it validates
nothing), a configured namespace ns maps the user key k to ns:k, and under
the namespace _checkpoint the user key k is written to exactly the backend
key _checkpoint:k that Storage::checkpoint name writes for name = k. -/
theorem with_namespace_unvalidated (st : Storage) (ns key : String) (v : Json) :
    (st.with_namespace ns).nspace = some ns
    ∧ (st.with_namespace ns).full_key key = ns ++ ":" ++ key
    ∧ ((st.with_namespace "_checkpoint").set key v).data
        = (st.checkpoint key v).data :=
  ⟨rfl, rfl, rfl⟩

-- ==========================================================================
-- opcode.rs: the Opcode type (claims C2, C3, C7)
-- ==========================================================================

/-- opcode.rs Range. The field end_ embeds the Rust field named end (a Lean
keyword); its wire name stays end. -/
structure Range where
  start : Nat
  end_ : Nat

/-- opcode.rs InferParams. temperature is an f32 in Rust; it is embedded as
the integer fragment of the wire numbers, floats being outside the
embedding. -/
structure InferParams where
  temperature : Option Int
  max_tokens : Option Nat
  model : Option String

/-- opcode.rs LogLevel. -/
inductive LogLevel where
  | debug
  | info
  | warn
  | error

/-- opcode.rs Register. -/
inductive Register where
  | pc
  | goal
  | focus
  | thought
  | flags
  | sp
  | custom (s : String)

/-- opcode.rs Opcode: all 52 variants with their named operands. ret embeds
the Rust variant Return and prefix_ the Rust field prefix (Lean keywords). -/
inductive Opcode where
  | load (page_id : String) (range : Option Range)
  | store (page_id : String) (data : Json)
  | alloc (size_hint : Option Nat) (label : Option String)
  | free (page_id : String)
  | copy (src : String) (dst : String) (range : Option Range)
  | call (program_id : String) (args : Json)
  | ret (value : Json)
  | yield
  | complete (result : Json)
  | fail (error : String)
  | branch (condition : String) (if_true : String) (if_false : String)
  | jump (target : String)
  | label (name : String)
  | loop (var : String) (over : String) (body : List Opcode)
  | syscall (call : String) (args : Json) (store_to : Option String)
  | readFile (path : String) (store_to : String)
  | writeFile (path : String) (content : String) (store_to : Option String)
  | listDir (path : String) (store_to : String)
  | exec (command : String) (store_to : String)
  | grep (pattern : String) (path : String) (store_to : String)
  | wait (handle : String) (timeout_ms : Option Nat)
  | fork (program_id : String) (args : Json)
  | join (pid : String)
  | send (pid : String) (message : Json)
  | recv (timeout_ms : Option Nat) (store_to : String)
  | infer (prompt : String) (context : List String) (store_to : String)
      (params : InferParams)
  | plan (goal : String) (context : List String) (store_to : String)
  | reflect (question : String) (include_trace : Bool) (store_to : String)
  | summarize (pages : List String) (target_tokens : Option Nat) (store_to : String)
  | chunk (source : String) (chunk_size : Nat) (prefix_ : Option String)
  | merge (pages : List String) (store_to : String) (separator : Option String)
  | nop
  | log (level : LogLevel) (message : String)
  | checkpoint (name : String)
  | rollback (name : String)
  | assert (condition : String) (message : String)
  | setReg (reg : Register) (value : Json)
  | getReg (reg : Register) (store_to : String)
  | push (value : Json)
  | pushPage (page_id : String)
  | pop
  | popTo (store_to : String)
  | peek (store_to : String)
  | peekAt (depth : Nat) (store_to : String)
  | dup
  | dupN (n : Nat)
  | swap
  | swapN (n : Nat)
  | rot (n : Nat)
  | drop (n : Nat)
  | depth (store_to : String)
  | clear

namespace Opcode

/-- Opcode::writes_pages, exactly the arms of the source match (the
wildcard arm returns the empty list). -/
def writes_pages : Opcode → List String
  | .store page_id _ => [page_id]
  | .alloc _ lbl =>
    match lbl with
    | some s => [s]
    | none => []
  | .copy _ dst _ => [dst]
  | .syscall _ _ store_to =>
    match store_to with
    | some s => [s]
    | none => []
  | .infer _ _ store_to _ => [store_to]
  | .summarize _ _ store_to => [store_to]
  | .merge _ store_to _ => [store_to]
  | .recv _ store_to => [store_to]
  | .getReg _ store_to => [store_to]
  | .popTo store_to => [store_to]
  | .peek store_to => [store_to]
  | .peekAt _ store_to => [store_to]
  | .depth store_to => [store_to]
  | _ => []

end Opcode

/-- C3 (code bug). writes_pages drops the store_to operand of the tool
opcodes ReadFile, WriteFile, ListDir, Exec, Grep and of Plan and Reflect:
its match has no arms for them, so they fall to the wildcard and report no
written pages, although each carries a store_to page it materializes (as
the fields' own documentation and the spec state). Infer, by contrast, is
listed. -/
theorem writes_pages_misses_tool_and_plan_opcodes :
    Opcode.writes_pages (.readFile "f.txt" "out") = []
    ∧ Opcode.writes_pages (.writeFile "f.txt" "c" (some "out")) = []
    ∧ Opcode.writes_pages (.listDir "d" "out") = []
    ∧ Opcode.writes_pages (.exec "ls" "out") = []
    ∧ Opcode.writes_pages (.grep "p" "d" "out") = []
    ∧ Opcode.writes_pages (.plan "g" [] "out") = []
    ∧ Opcode.writes_pages (.reflect "q" false "out") = []
    ∧ ¬ "out" ∈ Opcode.writes_pages (.readFile "f.txt" "out")
    ∧ Opcode.writes_pages (.infer "p" [] "out" ⟨none, none, none⟩) = ["out"] :=
  ⟨rfl, rfl, rfl, rfl, rfl, rfl, rfl, by simp [Opcode.writes_pages], rfl⟩

-- ==========================================================================
-- opcode.rs: serde wire encoding of Opcode and Program (claims C2, C7)
-- ==========================================================================

/-- Json for a usize. -/
def natJ (n : Nat) : Json := .num (Int.ofNat n)

/-- serde serialization of an Option<String> field (None becomes null). -/
def encodeOptStr : Option String → Json
  | none => .null
  | some s => .str s

/-- serde serialization of an Option<usize>/Option<u64> field. -/
def encodeOptNat : Option Nat → Json
  | none => .null
  | some n => natJ n

/-- serde serialization of the optional temperature (number fragment). -/
def encodeOptInt : Option Int → Json
  | none => .null
  | some i => .num i

/-- serde serialization of Range. -/
def encodeRange (r : Range) : Json :=
  .obj [("start", natJ r.start), ("end", natJ r.end_)]

/-- serde serialization of an Option<Range> field. -/
def encodeOptRange : Option Range → Json
  | none => .null
  | some r => encodeRange r

/-- serde serialization of a Vec<String> field. -/
def encodeStrList (l : List String) : Json := .arr (l.map Json.str)

/-- serde serialization of InferParams. -/
def encodeInferParams (p : InferParams) : Json :=
  .obj [("temperature", encodeOptInt p.temperature),
        ("max_tokens", encodeOptNat p.max_tokens),
        ("model", encodeOptStr p.model)]

/-- serde serialization of LogLevel (rename_all lowercase). -/
def encodeLogLevel : LogLevel → Json
  | .debug => .str "debug"
  | .info => .str "info"
  | .warn => .str "warn"
  | .error => .str "error"

/-- serde serialization of Register (rename_all snake_case; the newtype
variant Custom becomes a one-entry map). -/
def encodeRegister : Register → Json
  | .pc => .str "pc"
  | .goal => .str "goal"
  | .focus => .str "focus"
  | .thought => .str "thought"
  | .flags => .str "flags"
  | .sp => .str "sp"
  | .custom s => .obj [("custom", .str s)]

mutual
/-- serde serialization of Opcode: internally tagged on op, variant names in
SCREAMING_SNAKE_CASE, then the fields in declaration order. -/
def encodeOpcode : Opcode → Json
  | .load page_id range =>
    .obj [("op", .str "LOAD"), ("page_id", .str page_id),
          ("range", encodeOptRange range)]
  | .store page_id dat =>
    .obj [("op", .str "STORE"), ("page_id", .str page_id), ("data", dat)]
  | .alloc size_hint lbl =>
    .obj [("op", .str "ALLOC"), ("size_hint", encodeOptNat size_hint),
          ("label", encodeOptStr lbl)]
  | .free page_id =>
    .obj [("op", .str "FREE"), ("page_id", .str page_id)]
  | .copy src dst range =>
    .obj [("op", .str "COPY"), ("src", .str src), ("dst", .str dst),
          ("range", encodeOptRange range)]
  | .call program_id args =>
    .obj [("op", .str "CALL"), ("program_id", .str program_id), ("args", args)]
  | .ret value =>
    .obj [("op", .str "RETURN"), ("value", value)]
  | .yield => .obj [("op", .str "YIELD")]
  | .complete result =>
    .obj [("op", .str "COMPLETE"), ("result", result)]
  | .fail err =>
    .obj [("op", .str "FAIL"), ("error", .str err)]
  | .branch condition if_true if_false =>
    .obj [("op", .str "BRANCH"), ("condition", .str condition),
          ("if_true", .str if_true), ("if_false", .str if_false)]
  | .jump target =>
    .obj [("op", .str "JUMP"), ("target", .str target)]
  | .label name =>
    .obj [("op", .str "LABEL"), ("name", .str name)]
  | .loop var over body =>
    .obj [("op", .str "LOOP"), ("var", .str var), ("over", .str over),
          ("body", .arr (encodeOpcodeList body))]
  | .syscall c args store_to =>
    .obj [("op", .str "SYSCALL"), ("call", .str c), ("args", args),
          ("store_to", encodeOptStr store_to)]
  | .readFile path store_to =>
    .obj [("op", .str "READ_FILE"), ("path", .str path), ("store_to", .str store_to)]
  | .writeFile path content store_to =>
    .obj [("op", .str "WRITE_FILE"), ("path", .str path), ("content", .str content),
          ("store_to", encodeOptStr store_to)]
  | .listDir path store_to =>
    .obj [("op", .str "LIST_DIR"), ("path", .str path), ("store_to", .str store_to)]
  | .exec command store_to =>
    .obj [("op", .str "EXEC"), ("command", .str command), ("store_to", .str store_to)]
  | .grep pat path store_to =>
    .obj [("op", .str "GREP"), ("pattern", .str pat), ("path", .str path),
          ("store_to", .str store_to)]
  | .wait handle timeout_ms =>
    .obj [("op", .str "WAIT"), ("handle", .str handle),
          ("timeout_ms", encodeOptNat timeout_ms)]
  | .fork program_id args =>
    .obj [("op", .str "FORK"), ("program_id", .str program_id), ("args", args)]
  | .join pid =>
    .obj [("op", .str "JOIN"), ("pid", .str pid)]
  | .send pid message =>
    .obj [("op", .str "SEND"), ("pid", .str pid), ("message", message)]
  | .recv timeout_ms store_to =>
    .obj [("op", .str "RECV"), ("timeout_ms", encodeOptNat timeout_ms),
          ("store_to", .str store_to)]
  | .infer prompt context store_to params =>
    .obj [("op", .str "INFER"), ("prompt", .str prompt),
          ("context", encodeStrList context), ("store_to", .str store_to),
          ("params", encodeInferParams params)]
  | .plan g context store_to =>
    .obj [("op", .str "PLAN"), ("goal", .str g),
          ("context", encodeStrList context), ("store_to", .str store_to)]
  | .reflect question include_trace store_to =>
    .obj [("op", .str "REFLECT"), ("question", .str question),
          ("include_trace", .bool include_trace), ("store_to", .str store_to)]
  | .summarize pages target_tokens store_to =>
    .obj [("op", .str "SUMMARIZE"), ("pages", encodeStrList pages),
          ("target_tokens", encodeOptNat target_tokens), ("store_to", .str store_to)]
  | .chunk source chunk_size prefix_ =>
    .obj [("op", .str "CHUNK"), ("source", .str source),
          ("chunk_size", natJ chunk_size), ("prefix", encodeOptStr prefix_)]
  | .merge pages store_to separator =>
    .obj [("op", .str "MERGE"), ("pages", encodeStrList pages),
          ("store_to", .str store_to), ("separator", encodeOptStr separator)]
  | .nop => .obj [("op", .str "NOP")]
  | .log level message =>
    .obj [("op", .str "LOG"), ("level", encodeLogLevel level),
          ("message", .str message)]
  | .checkpoint name =>
    .obj [("op", .str "CHECKPOINT"), ("name", .str name)]
  | .rollback name =>
    .obj [("op", .str "ROLLBACK"), ("name", .str name)]
  | .assert condition message =>
    .obj [("op", .str "ASSERT"), ("condition", .str condition),
          ("message", .str message)]
  | .setReg reg value =>
    .obj [("op", .str "SET_REG"), ("reg", encodeRegister reg), ("value", value)]
  | .getReg reg store_to =>
    .obj [("op", .str "GET_REG"), ("reg", encodeRegister reg),
          ("store_to", .str store_to)]
  | .push value =>
    .obj [("op", .str "PUSH"), ("value", value)]
  | .pushPage page_id =>
    .obj [("op", .str "PUSH_PAGE"), ("page_id", .str page_id)]
  | .pop => .obj [("op", .str "POP")]
  | .popTo store_to =>
    .obj [("op", .str "POP_TO"), ("store_to", .str store_to)]
  | .peek store_to =>
    .obj [("op", .str "PEEK"), ("store_to", .str store_to)]
  | .peekAt d store_to =>
    .obj [("op", .str "PEEK_AT"), ("depth", natJ d), ("store_to", .str store_to)]
  | .dup => .obj [("op", .str "DUP")]
  | .dupN n =>
    .obj [("op", .str "DUP_N"), ("n", natJ n)]
  | .swap => .obj [("op", .str "SWAP")]
  | .swapN n =>
    .obj [("op", .str "SWAP_N"), ("n", natJ n)]
  | .rot n =>
    .obj [("op", .str "ROT"), ("n", natJ n)]
  | .drop n =>
    .obj [("op", .str "DROP"), ("n", natJ n)]
  | .depth store_to =>
    .obj [("op", .str "DEPTH"), ("store_to", .str store_to)]
  | .clear => .obj [("op", .str "CLEAR")]

/-- Element-wise serialization of a program body. -/
def encodeOpcodeList : List Opcode → List Json
  | [] => []
  | x :: xs => encodeOpcode x :: encodeOpcodeList xs
end

/-- First binding of a key in a JSON object (serde reads fields by name). -/
def lookupJ : List (String × Json) → String → Option Json
  | [], _ => none
  | (k, v) :: rest, key => if k = key then some v else lookupJ rest key

/-- serde deserialization of a String field value. -/
def asStr : Json → Option String
  | .str s => some s
  | _ => none

/-- serde deserialization of a usize/u64 field value (negative numbers are
rejected). -/
def asNat : Json → Option Nat
  | .num (.ofNat n) => some n
  | _ => none

/-- serde deserialization of an Option<String> field value. -/
def asOptStr : Json → Option (Option String)
  | .null => some none
  | .str s => some (some s)
  | _ => none

/-- serde deserialization of an Option<usize>/Option<u64> field value. -/
def asOptNat : Json → Option (Option Nat)
  | .null => some none
  | .num (.ofNat n) => some (some n)
  | _ => none

/-- serde deserialization of the optional temperature field value. -/
def asOptInt : Json → Option (Option Int)
  | .null => some none
  | .num i => some (some i)
  | _ => none

/-- serde deserialization of a bool field value. -/
def asBool : Json → Option Bool
  | .bool b => some b
  | _ => none

/-- Element decoding of a Vec<String>. -/
def asStrItems : List Json → Option (List String)
  | [] => some []
  | x :: xs =>
    match asStr x, asStrItems xs with
    | some s, some rest => some (s :: rest)
    | _, _ => none

/-- serde deserialization of a Vec<String> field value. -/
def asStrList : Json → Option (List String)
  | .arr xs => asStrItems xs
  | _ => none

/-- serde deserialization of a Range value. -/
def asRange : Json → Option Range
  | .obj fields =>
    match (lookupJ fields "start").bind asNat, (lookupJ fields "end").bind asNat with
    | some a, some b => some ⟨a, b⟩
    | _, _ => none
  | _ => none

/-- serde deserialization of an Option<Range> field value. -/
def asOptRange : Json → Option (Option Range)
  | .null => some none
  | j =>
    match asRange j with
    | some r => some (some r)
    | none => none

/-- serde deserialization of an InferParams value (each field optional with
a default). -/
def asInferParams : Json → Option InferParams
  | .obj fields =>
    match (match lookupJ fields "temperature" with
           | none => some none
           | some v => asOptInt v),
          (match lookupJ fields "max_tokens" with
           | none => some none
           | some v => asOptNat v),
          (match lookupJ fields "model" with
           | none => some none
           | some v => asOptStr v) with
    | some t, some mx, some md => some ⟨t, mx, md⟩
    | _, _, _ => none
  | _ => none

/-- serde deserialization of a LogLevel value. -/
def asLogLevel : Json → Option LogLevel
  | .str "debug" => some .debug
  | .str "info" => some .info
  | .str "warn" => some .warn
  | .str "error" => some .error
  | _ => none

/-- serde deserialization of a Register value. -/
def asRegister : Json → Option Register
  | .str "pc" => some .pc
  | .str "goal" => some .goal
  | .str "focus" => some .focus
  | .str "thought" => some .thought
  | .str "flags" => some .flags
  | .str "sp" => some .sp
  | .obj [(k, v)] =>
    if k = "custom" then
      match v with
      | .str s => some (.custom s)
      | _ => none
    else none
  | _ => none

/-- A required field: present and well typed, per the value decoder. -/
def fieldR (fields : List (String × Json)) (key : String)
    (dec : Json → Option α) : Option α :=
  (lookupJ fields key).bind dec

/-- A field with a serde default: a missing field yields the default, a
present one must decode. -/
def fieldD (fields : List (String × Json)) (key : String)
    (dec : Json → Option α) (dflt : α) : Option α :=
  match lookupJ fields key with
  | none => some dflt
  | some v => dec v

/-- Field deserialization of the LOAD variant. -/
def decLOAD (fields : List (String × Json)) : Option Opcode :=
    match fieldR fields "page_id" asStr, fieldD fields "range" asOptRange none with
    | some pid, some r => some (.load pid r)
    | _, _ => none

/-- Field deserialization of the STORE variant. -/
def decSTORE (fields : List (String × Json)) : Option Opcode :=
    match fieldR fields "page_id" asStr, fieldR fields "data" some with
    | some pid, some d => some (.store pid d)
    | _, _ => none

/-- Field deserialization of the ALLOC variant. -/
def decALLOC (fields : List (String × Json)) : Option Opcode :=
    match fieldD fields "size_hint" asOptNat none,
          fieldD fields "label" asOptStr none with
    | some sh, some lb => some (.alloc sh lb)
    | _, _ => none

/-- Field deserialization of the FREE variant. -/
def decFREE (fields : List (String × Json)) : Option Opcode :=
    match fieldR fields "page_id" asStr with
    | some pid => some (.free pid)
    | none => none

/-- Field deserialization of the COPY variant. -/
def decCOPY (fields : List (String × Json)) : Option Opcode :=
    match fieldR fields "src" asStr, fieldR fields "dst" asStr,
          fieldD fields "range" asOptRange none with
    | some s, some d, some r => some (.copy s d r)
    | _, _, _ => none

/-- Field deserialization of the CALL variant. -/
def decCALL (fields : List (String × Json)) : Option Opcode :=
    match fieldR fields "program_id" asStr,
          fieldD fields "args" some Json.null with
    | some pid, some a => some (.call pid a)
    | _, _ => none

/-- Field deserialization of the RETURN variant. -/
def decRETURN (fields : List (String × Json)) : Option Opcode :=
    match fieldD fields "value" some Json.null with
    | some v => some (.ret v)
    | none => none

/-- Field deserialization of the YIELD variant. -/
def decYIELD (_fields : List (String × Json)) : Option Opcode :=
  some .yield

/-- Field deserialization of the COMPLETE variant. -/
def decCOMPLETE (fields : List (String × Json)) : Option Opcode :=
    match fieldR fields "result" some with
    | some r => some (.complete r)
    | none => none

/-- Field deserialization of the FAIL variant. -/
def decFAIL (fields : List (String × Json)) : Option Opcode :=
    match fieldR fields "error" asStr with
    | some e => some (.fail e)
    | none => none

/-- Field deserialization of the BRANCH variant. -/
def decBRANCH (fields : List (String × Json)) : Option Opcode :=
    match fieldR fields "condition" asStr, fieldR fields "if_true" asStr,
          fieldR fields "if_false" asStr with
    | some c, some t, some f => some (.branch c t f)
    | _, _, _ => none

/-- Field deserialization of the JUMP variant. -/
def decJUMP (fields : List (String × Json)) : Option Opcode :=
    match fieldR fields "target" asStr with
    | some t => some (.jump t)
    | none => none

/-- Field deserialization of the LABEL variant. -/
def decLABEL (fields : List (String × Json)) : Option Opcode :=
    match fieldR fields "name" asStr with
    | some n => some (.label n)
    | none => none

/-- Field deserialization of the SYSCALL variant. -/
def decSYSCALL (fields : List (String × Json)) : Option Opcode :=
    match fieldR fields "call" asStr, fieldD fields "args" some Json.null,
          fieldD fields "store_to" asOptStr none with
    | some c, some a, some st => some (.syscall c a st)
    | _, _, _ => none

/-- Field deserialization of the READ_FILE variant. -/
def decREAD_FILE (fields : List (String × Json)) : Option Opcode :=
    match fieldR fields "path" asStr, fieldR fields "store_to" asStr with
    | some p, some st => some (.readFile p st)
    | _, _ => none

/-- Field deserialization of the WRITE_FILE variant. -/
def decWRITE_FILE (fields : List (String × Json)) : Option Opcode :=
    match fieldR fields "path" asStr, fieldR fields "content" asStr,
          fieldD fields "store_to" asOptStr none with
    | some p, some c, some st => some (.writeFile p c st)
    | _, _, _ => none

/-- Field deserialization of the LIST_DIR variant. -/
def decLIST_DIR (fields : List (String × Json)) : Option Opcode :=
    match fieldR fields "path" asStr, fieldR fields "store_to" asStr with
    | some p, some st => some (.listDir p st)
    | _, _ => none

/-- Field deserialization of the EXEC variant. -/
def decEXEC (fields : List (String × Json)) : Option Opcode :=
    match fieldR fields "command" asStr, fieldR fields "store_to" asStr with
    | some c, some st => some (.exec c st)
    | _, _ => none

/-- Field deserialization of the GREP variant. -/
def decGREP (fields : List (String × Json)) : Option Opcode :=
    match fieldR fields "pattern" asStr, fieldR fields "path" asStr,
          fieldR fields "store_to" asStr with
    | some pt, some p, some st => some (.grep pt p st)
    | _, _, _ => none

/-- Field deserialization of the WAIT variant. -/
def decWAIT (fields : List (String × Json)) : Option Opcode :=
    match fieldR fields "handle" asStr,
          fieldD fields "timeout_ms" asOptNat none with
    | some h, some t => some (.wait h t)
    | _, _ => none

/-- Field deserialization of the FORK variant. -/
def decFORK (fields : List (String × Json)) : Option Opcode :=
    match fieldR fields "program_id" asStr,
          fieldD fields "args" some Json.null with
    | some pid, some a => some (.fork pid a)
    | _, _ => none

/-- Field deserialization of the JOIN variant. -/
def decJOIN (fields : List (String × Json)) : Option Opcode :=
    match fieldR fields "pid" asStr with
    | some p => some (.join p)
    | none => none

/-- Field deserialization of the SEND variant. -/
def decSEND (fields : List (String × Json)) : Option Opcode :=
    match fieldR fields "pid" asStr, fieldR fields "message" some with
    | some p, some msg => some (.send p msg)
    | _, _ => none

/-- Field deserialization of the RECV variant. -/
def decRECV (fields : List (String × Json)) : Option Opcode :=
    match fieldD fields "timeout_ms" asOptNat none,
          fieldR fields "store_to" asStr with
    | some t, some st => some (.recv t st)
    | _, _ => none

/-- Field deserialization of the INFER variant. -/
def decINFER (fields : List (String × Json)) : Option Opcode :=
    match fieldR fields "prompt" asStr, fieldD fields "context" asStrList [],
          fieldR fields "store_to" asStr,
          fieldD fields "params" asInferParams ⟨none, none, none⟩ with
    | some pr, some cx, some st, some pa => some (.infer pr cx st pa)
    | _, _, _, _ => none

/-- Field deserialization of the PLAN variant. -/
def decPLAN (fields : List (String × Json)) : Option Opcode :=
    match fieldR fields "goal" asStr, fieldD fields "context" asStrList [],
          fieldR fields "store_to" asStr with
    | some g, some cx, some st => some (.plan g cx st)
    | _, _, _ => none

/-- Field deserialization of the REFLECT variant. -/
def decREFLECT (fields : List (String × Json)) : Option Opcode :=
    match fieldR fields "question" asStr,
          fieldD fields "include_trace" asBool false,
          fieldR fields "store_to" asStr with
    | some q, some it, some st => some (.reflect q it st)
    | _, _, _ => none

/-- Field deserialization of the SUMMARIZE variant. -/
def decSUMMARIZE (fields : List (String × Json)) : Option Opcode :=
    match fieldR fields "pages" asStrList,
          fieldD fields "target_tokens" asOptNat none,
          fieldR fields "store_to" asStr with
    | some pg, some tt, some st => some (.summarize pg tt st)
    | _, _, _ => none

/-- Field deserialization of the CHUNK variant. -/
def decCHUNK (fields : List (String × Json)) : Option Opcode :=
    match fieldR fields "source" asStr, fieldR fields "chunk_size" asNat,
          fieldD fields "prefix" asOptStr none with
    | some sc, some cs, some pf => some (.chunk sc cs pf)
    | _, _, _ => none

/-- Field deserialization of the MERGE variant. -/
def decMERGE (fields : List (String × Json)) : Option Opcode :=
    match fieldR fields "pages" asStrList, fieldR fields "store_to" asStr,
          fieldD fields "separator" asOptStr none with
    | some pg, some st, some sp => some (.merge pg st sp)
    | _, _, _ => none

/-- Field deserialization of the NOP variant. -/
def decNOP (_fields : List (String × Json)) : Option Opcode :=
  some .nop

/-- Field deserialization of the LOG variant. -/
def decLOG (fields : List (String × Json)) : Option Opcode :=
    match fieldR fields "level" asLogLevel, fieldR fields "message" asStr with
    | some lv, some msg => some (.log lv msg)
    | _, _ => none

/-- Field deserialization of the CHECKPOINT variant. -/
def decCHECKPOINT (fields : List (String × Json)) : Option Opcode :=
    match fieldR fields "name" asStr with
    | some n => some (.checkpoint n)
    | none => none

/-- Field deserialization of the ROLLBACK variant. -/
def decROLLBACK (fields : List (String × Json)) : Option Opcode :=
    match fieldR fields "name" asStr with
    | some n => some (.rollback n)
    | none => none

/-- Field deserialization of the ASSERT variant. -/
def decASSERT (fields : List (String × Json)) : Option Opcode :=
    match fieldR fields "condition" asStr, fieldR fields "message" asStr with
    | some c, some msg => some (.assert c msg)
    | _, _ => none

/-- Field deserialization of the SET_REG variant. -/
def decSET_REG (fields : List (String × Json)) : Option Opcode :=
    match fieldR fields "reg" asRegister, fieldR fields "value" some with
    | some r, some v => some (.setReg r v)
    | _, _ => none

/-- Field deserialization of the GET_REG variant. -/
def decGET_REG (fields : List (String × Json)) : Option Opcode :=
    match fieldR fields "reg" asRegister, fieldR fields "store_to" asStr with
    | some r, some st => some (.getReg r st)
    | _, _ => none

/-- Field deserialization of the PUSH variant. -/
def decPUSH (fields : List (String × Json)) : Option Opcode :=
    match fieldR fields "value" some with
    | some v => some (.push v)
    | none => none

/-- Field deserialization of the PUSH_PAGE variant. -/
def decPUSH_PAGE (fields : List (String × Json)) : Option Opcode :=
    match fieldR fields "page_id" asStr with
    | some pid => some (.pushPage pid)
    | none => none

/-- Field deserialization of the POP variant. -/
def decPOP (_fields : List (String × Json)) : Option Opcode :=
  some .pop

/-- Field deserialization of the POP_TO variant. -/
def decPOP_TO (fields : List (String × Json)) : Option Opcode :=
    match fieldR fields "store_to" asStr with
    | some st => some (.popTo st)
    | none => none

/-- Field deserialization of the PEEK variant. -/
def decPEEK (fields : List (String × Json)) : Option Opcode :=
    match fieldR fields "store_to" asStr with
    | some st => some (.peek st)
    | none => none

/-- Field deserialization of the PEEK_AT variant. -/
def decPEEK_AT (fields : List (String × Json)) : Option Opcode :=
    match fieldR fields "depth" asNat, fieldR fields "store_to" asStr with
    | some d, some st => some (.peekAt d st)
    | _, _ => none

/-- Field deserialization of the DUP variant. -/
def decDUP (_fields : List (String × Json)) : Option Opcode :=
  some .dup

/-- Field deserialization of the DUP_N variant. -/
def decDUP_N (fields : List (String × Json)) : Option Opcode :=
    match fieldR fields "n" asNat with
    | some n => some (.dupN n)
    | none => none

/-- Field deserialization of the SWAP variant. -/
def decSWAP (_fields : List (String × Json)) : Option Opcode :=
  some .swap

/-- Field deserialization of the SWAP_N variant. -/
def decSWAP_N (fields : List (String × Json)) : Option Opcode :=
    match fieldR fields "n" asNat with
    | some n => some (.swapN n)
    | none => none

/-- Field deserialization of the ROT variant. -/
def decROT (fields : List (String × Json)) : Option Opcode :=
    match fieldR fields "n" asNat with
    | some n => some (.rot n)
    | none => none

/-- Field deserialization of the DROP variant. -/
def decDROP (fields : List (String × Json)) : Option Opcode :=
    match fieldD fields "n" asNat 1 with
    | some n => some (.drop n)
    | none => none

/-- Field deserialization of the DEPTH variant. -/
def decDEPTH (fields : List (String × Json)) : Option Opcode :=
    match fieldR fields "store_to" asStr with
    | some st => some (.depth st)
    | none => none

/-- Field deserialization of the CLEAR variant. -/
def decCLEAR (_fields : List (String × Json)) : Option Opcode :=
  some .clear

/-- The tag dispatch table: serde's generated deserializer matches the op
tag against the variant names; the table pairs each tag with its variant's
field deserializer (LOOP, whose body recurses, is dispatched separately). -/
def opDecoderTable : List (String × (List (String × Json) → Option Opcode)) :=
  [("LOAD", decLOAD),
   ("STORE", decSTORE),
   ("ALLOC", decALLOC),
   ("FREE", decFREE),
   ("COPY", decCOPY),
   ("CALL", decCALL),
   ("RETURN", decRETURN),
   ("YIELD", decYIELD),
   ("COMPLETE", decCOMPLETE),
   ("FAIL", decFAIL),
   ("BRANCH", decBRANCH),
   ("JUMP", decJUMP),
   ("LABEL", decLABEL),
   ("SYSCALL", decSYSCALL),
   ("READ_FILE", decREAD_FILE),
   ("WRITE_FILE", decWRITE_FILE),
   ("LIST_DIR", decLIST_DIR),
   ("EXEC", decEXEC),
   ("GREP", decGREP),
   ("WAIT", decWAIT),
   ("FORK", decFORK),
   ("JOIN", decJOIN),
   ("SEND", decSEND),
   ("RECV", decRECV),
   ("INFER", decINFER),
   ("PLAN", decPLAN),
   ("REFLECT", decREFLECT),
   ("SUMMARIZE", decSUMMARIZE),
   ("CHUNK", decCHUNK),
   ("MERGE", decMERGE),
   ("NOP", decNOP),
   ("LOG", decLOG),
   ("CHECKPOINT", decCHECKPOINT),
   ("ROLLBACK", decROLLBACK),
   ("ASSERT", decASSERT),
   ("SET_REG", decSET_REG),
   ("GET_REG", decGET_REG),
   ("PUSH", decPUSH),
   ("PUSH_PAGE", decPUSH_PAGE),
   ("POP", decPOP),
   ("POP_TO", decPOP_TO),
   ("PEEK", decPEEK),
   ("PEEK_AT", decPEEK_AT),
   ("DUP", decDUP),
   ("DUP_N", decDUP_N),
   ("SWAP", decSWAP),
   ("SWAP_N", decSWAP_N),
   ("ROT", decROT),
   ("DROP", decDROP),
   ("DEPTH", decDEPTH),
   ("CLEAR", decCLEAR)]

/-- Lookup of a tag in the dispatch table. -/
def lookupDecoder :
    List (String × (List (String × Json) → Option Opcode)) → String →
    Option (List (String × Json) → Option Opcode)
  | [], _ => none
  | (k, d) :: rest, tag => if k = tag then some d else lookupDecoder rest tag

mutual
/-- serde deserialization of an Opcode: an object whose op field names the
variant in SCREAMING_SNAKE_CASE; unknown tags and ill-typed or missing
required fields fail. -/
def decodeOpcode : Json → Option Opcode
  | .obj fields =>
    (match lookupJ fields "op" with
     | some (.str tag) =>
       if tag = "LOOP" then
           match fieldR fields "var" asStr, fieldR fields "over" asStr,
                 decodeBodyField fields with
           | some v, some o, some b => some (.loop v o b)
           | _, _, _ => none
       else
         match lookupDecoder opDecoderTable tag with
         | some d => d fields
         | none => none
     | _ => none)
  | _ => none

/-- The body field of LOOP: scanned in place so the nested opcodes are
decoded structurally; a missing field yields the serde default. -/
def decodeBodyField : List (String × Json) → Option (List Opcode)
  | [] => some []
  | (k, v) :: rest =>
    if k = "body" then
      match v with
      | .arr xs => decodeOpcodeList xs
      | _ => none
    else decodeBodyField rest

/-- Element-wise deserialization of a sequence of opcodes. -/
def decodeOpcodeList : List Json → Option (List Opcode)
  | [] => some []
  | x :: xs =>
    match decodeOpcode x, decodeOpcodeList xs with
    | some o, some os => some (o :: os)
    | _, _ => none
end

@[simp]
theorem asOptStr_encode (o : Option String) : asOptStr (encodeOptStr o) = some o := by
  cases o <;> rfl

@[simp]
theorem asNat_encode (n : Nat) : asNat (natJ n) = some n := by
  simp [natJ, asNat]

@[simp]
theorem asOptNat_encode (o : Option Nat) : asOptNat (encodeOptNat o) = some o := by
  cases o with
  | none => rfl
  | some n => simp [encodeOptNat, natJ, asOptNat]

@[simp]
theorem asOptInt_encode (o : Option Int) : asOptInt (encodeOptInt o) = some o := by
  cases o <;> rfl

@[simp]
theorem asRange_encode (r : Range) : asRange (encodeRange r) = some r := by
  simp [encodeRange, asRange, lookupJ]

@[simp]
theorem asOptRange_encode (o : Option Range) : asOptRange (encodeOptRange o) = some o := by
  cases o with
  | none => rfl
  | some r => simp [encodeOptRange, asOptRange, encodeRange, asRange, lookupJ]

@[simp]
theorem asStrItems_encode (l : List String) : asStrItems (l.map Json.str) = some l := by
  induction l with
  | nil => rfl
  | cons x xs ih => simp [asStrItems, asStr, ih]

@[simp]
theorem asStrList_encode (l : List String) : asStrList (encodeStrList l) = some l := by
  simp [encodeStrList, asStrList]

@[simp]
theorem asInferParams_encode (p : InferParams) :
    asInferParams (encodeInferParams p) = some p := by
  cases p with
  | mk t mx md => simp [encodeInferParams, asInferParams, lookupJ]

@[simp]
theorem asLogLevel_encode (lv : LogLevel) : asLogLevel (encodeLogLevel lv) = some lv := by
  cases lv <;> rfl

@[simp]
theorem asRegister_encode (r : Register) : asRegister (encodeRegister r) = some r := by
  cases r <;> rfl

mutual
/-- Round-trip of a single opcode through the wire codec. -/
theorem decodeOpcode_encodeOpcode : ∀ (op : Opcode),
    decodeOpcode (encodeOpcode op) = some op
  | .load a r => by
    simp [encodeOpcode, decodeOpcode, lookupJ, lookupDecoder, opDecoderTable,
      decLOAD, fieldR, fieldD, asStr, asBool]
  | .store a d => by
    simp [encodeOpcode, decodeOpcode, lookupJ, lookupDecoder, opDecoderTable,
      decSTORE, fieldR, fieldD, asStr, asBool]
  | .alloc sh lb => by
    simp [encodeOpcode, decodeOpcode, lookupJ, lookupDecoder, opDecoderTable,
      decALLOC, fieldR, fieldD, asStr, asBool]
  | .free a => by
    simp [encodeOpcode, decodeOpcode, lookupJ, lookupDecoder, opDecoderTable,
      decFREE, fieldR, fieldD, asStr, asBool]
  | .copy a b r => by
    simp [encodeOpcode, decodeOpcode, lookupJ, lookupDecoder, opDecoderTable,
      decCOPY, fieldR, fieldD, asStr, asBool]
  | .call a d => by
    simp [encodeOpcode, decodeOpcode, lookupJ, lookupDecoder, opDecoderTable,
      decCALL, fieldR, fieldD, asStr, asBool]
  | .ret d => by
    simp [encodeOpcode, decodeOpcode, lookupJ, lookupDecoder, opDecoderTable,
      decRETURN, fieldR, fieldD, asStr, asBool]
  | .yield => by
    simp [encodeOpcode, decodeOpcode, lookupJ, lookupDecoder, opDecoderTable,
      decYIELD, fieldR, fieldD, asStr, asBool]
  | .complete d => by
    simp [encodeOpcode, decodeOpcode, lookupJ, lookupDecoder, opDecoderTable,
      decCOMPLETE, fieldR, fieldD, asStr, asBool]
  | .fail e => by
    simp [encodeOpcode, decodeOpcode, lookupJ, lookupDecoder, opDecoderTable,
      decFAIL, fieldR, fieldD, asStr, asBool]
  | .branch c t f => by
    simp [encodeOpcode, decodeOpcode, lookupJ, lookupDecoder, opDecoderTable,
      decBRANCH, fieldR, fieldD, asStr, asBool]
  | .jump t => by
    simp [encodeOpcode, decodeOpcode, lookupJ, lookupDecoder, opDecoderTable,
      decJUMP, fieldR, fieldD, asStr, asBool]
  | .label n => by
    simp [encodeOpcode, decodeOpcode, lookupJ, lookupDecoder, opDecoderTable,
      decLABEL, fieldR, fieldD, asStr, asBool]
  | .loop v o body => by
    have ih := decodeOpcodeList_encodeOpcodeList body
    simp [encodeOpcode, decodeOpcode, lookupJ, fieldR, fieldD, asStr,
      decodeBodyField, ih]
  | .syscall c d st => by
    simp [encodeOpcode, decodeOpcode, lookupJ, lookupDecoder, opDecoderTable,
      decSYSCALL, fieldR, fieldD, asStr, asBool]
  | .readFile p st => by
    simp [encodeOpcode, decodeOpcode, lookupJ, lookupDecoder, opDecoderTable,
      decREAD_FILE, fieldR, fieldD, asStr, asBool]
  | .writeFile p c st => by
    simp [encodeOpcode, decodeOpcode, lookupJ, lookupDecoder, opDecoderTable,
      decWRITE_FILE, fieldR, fieldD, asStr, asBool]
  | .listDir p st => by
    simp [encodeOpcode, decodeOpcode, lookupJ, lookupDecoder, opDecoderTable,
      decLIST_DIR, fieldR, fieldD, asStr, asBool]
  | .exec c st => by
    simp [encodeOpcode, decodeOpcode, lookupJ, lookupDecoder, opDecoderTable,
      decEXEC, fieldR, fieldD, asStr, asBool]
  | .grep pt p st => by
    simp [encodeOpcode, decodeOpcode, lookupJ, lookupDecoder, opDecoderTable,
      decGREP, fieldR, fieldD, asStr, asBool]
  | .wait h t => by
    simp [encodeOpcode, decodeOpcode, lookupJ, lookupDecoder, opDecoderTable,
      decWAIT, fieldR, fieldD, asStr, asBool]
  | .fork a d => by
    simp [encodeOpcode, decodeOpcode, lookupJ, lookupDecoder, opDecoderTable,
      decFORK, fieldR, fieldD, asStr, asBool]
  | .join p => by
    simp [encodeOpcode, decodeOpcode, lookupJ, lookupDecoder, opDecoderTable,
      decJOIN, fieldR, fieldD, asStr, asBool]
  | .send p msg => by
    simp [encodeOpcode, decodeOpcode, lookupJ, lookupDecoder, opDecoderTable,
      decSEND, fieldR, fieldD, asStr, asBool]
  | .recv t st => by
    simp [encodeOpcode, decodeOpcode, lookupJ, lookupDecoder, opDecoderTable,
      decRECV, fieldR, fieldD, asStr, asBool]
  | .infer pr cx st pa => by
    simp [encodeOpcode, decodeOpcode, lookupJ, lookupDecoder, opDecoderTable,
      decINFER, fieldR, fieldD, asStr, asBool]
  | .plan g cx st => by
    simp [encodeOpcode, decodeOpcode, lookupJ, lookupDecoder, opDecoderTable,
      decPLAN, fieldR, fieldD, asStr, asBool]
  | .reflect q it st => by
    simp [encodeOpcode, decodeOpcode, lookupJ, lookupDecoder, opDecoderTable,
      decREFLECT, fieldR, fieldD, asStr, asBool]
  | .summarize pg tt st => by
    simp [encodeOpcode, decodeOpcode, lookupJ, lookupDecoder, opDecoderTable,
      decSUMMARIZE, fieldR, fieldD, asStr, asBool]
  | .chunk sc cs pf => by
    simp [encodeOpcode, decodeOpcode, lookupJ, lookupDecoder, opDecoderTable,
      decCHUNK, fieldR, fieldD, asStr, asBool]
  | .merge pg st sp => by
    simp [encodeOpcode, decodeOpcode, lookupJ, lookupDecoder, opDecoderTable,
      decMERGE, fieldR, fieldD, asStr, asBool]
  | .nop => by
    simp [encodeOpcode, decodeOpcode, lookupJ, lookupDecoder, opDecoderTable,
      decNOP, fieldR, fieldD, asStr, asBool]
  | .log lv msg => by
    simp [encodeOpcode, decodeOpcode, lookupJ, lookupDecoder, opDecoderTable,
      decLOG, fieldR, fieldD, asStr, asBool]
  | .checkpoint n => by
    simp [encodeOpcode, decodeOpcode, lookupJ, lookupDecoder, opDecoderTable,
      decCHECKPOINT, fieldR, fieldD, asStr, asBool]
  | .rollback n => by
    simp [encodeOpcode, decodeOpcode, lookupJ, lookupDecoder, opDecoderTable,
      decROLLBACK, fieldR, fieldD, asStr, asBool]
  | .assert c msg => by
    simp [encodeOpcode, decodeOpcode, lookupJ, lookupDecoder, opDecoderTable,
      decASSERT, fieldR, fieldD, asStr, asBool]
  | .setReg r v => by
    simp [encodeOpcode, decodeOpcode, lookupJ, lookupDecoder, opDecoderTable,
      decSET_REG, fieldR, fieldD, asStr, asBool]
  | .getReg r st => by
    simp [encodeOpcode, decodeOpcode, lookupJ, lookupDecoder, opDecoderTable,
      decGET_REG, fieldR, fieldD, asStr, asBool]
  | .push v => by
    simp [encodeOpcode, decodeOpcode, lookupJ, lookupDecoder, opDecoderTable,
      decPUSH, fieldR, fieldD, asStr, asBool]
  | .pushPage a => by
    simp [encodeOpcode, decodeOpcode, lookupJ, lookupDecoder, opDecoderTable,
      decPUSH_PAGE, fieldR, fieldD, asStr, asBool]
  | .pop => by
    simp [encodeOpcode, decodeOpcode, lookupJ, lookupDecoder, opDecoderTable,
      decPOP, fieldR, fieldD, asStr, asBool]
  | .popTo st => by
    simp [encodeOpcode, decodeOpcode, lookupJ, lookupDecoder, opDecoderTable,
      decPOP_TO, fieldR, fieldD, asStr, asBool]
  | .peek st => by
    simp [encodeOpcode, decodeOpcode, lookupJ, lookupDecoder, opDecoderTable,
      decPEEK, fieldR, fieldD, asStr, asBool]
  | .peekAt d st => by
    simp [encodeOpcode, decodeOpcode, lookupJ, lookupDecoder, opDecoderTable,
      decPEEK_AT, fieldR, fieldD, asStr, asBool]
  | .dup => by
    simp [encodeOpcode, decodeOpcode, lookupJ, lookupDecoder, opDecoderTable,
      decDUP, fieldR, fieldD, asStr, asBool]
  | .dupN n => by
    simp [encodeOpcode, decodeOpcode, lookupJ, lookupDecoder, opDecoderTable,
      decDUP_N, fieldR, fieldD, asStr, asBool]
  | .swap => by
    simp [encodeOpcode, decodeOpcode, lookupJ, lookupDecoder, opDecoderTable,
      decSWAP, fieldR, fieldD, asStr, asBool]
  | .swapN n => by
    simp [encodeOpcode, decodeOpcode, lookupJ, lookupDecoder, opDecoderTable,
      decSWAP_N, fieldR, fieldD, asStr, asBool]
  | .rot n => by
    simp [encodeOpcode, decodeOpcode, lookupJ, lookupDecoder, opDecoderTable,
      decROT, fieldR, fieldD, asStr, asBool]
  | .drop n => by
    simp [encodeOpcode, decodeOpcode, lookupJ, lookupDecoder, opDecoderTable,
      decDROP, fieldR, fieldD, asStr, asBool]
  | .depth st => by
    simp [encodeOpcode, decodeOpcode, lookupJ, lookupDecoder, opDecoderTable,
      decDEPTH, fieldR, fieldD, asStr, asBool]
  | .clear => by
    simp [encodeOpcode, decodeOpcode, lookupJ, lookupDecoder, opDecoderTable,
      decCLEAR, fieldR, fieldD, asStr, asBool]

/-- Round-trip of a sequence of opcodes through the wire codec. -/
theorem decodeOpcodeList_encodeOpcodeList : ∀ (l : List Opcode),
    decodeOpcodeList (encodeOpcodeList l) = some l
  | [] => rfl
  | x :: xs => by
    have ih1 := decodeOpcode_encodeOpcode x
    have ih2 := decodeOpcodeList_encodeOpcodeList xs
    simp [encodeOpcodeList, decodeOpcodeList, ih1, ih2]
end

/-- opcode.rs Program. -/
structure Program where
  id : String
  name : String
  description : Option String
  code : List Opcode
  entry : Option String

/-- serde serialization of a Program. -/
def encodeProgram (p : Program) : Json :=
  .obj [("id", .str p.id), ("name", .str p.name),
        ("description", encodeOptStr p.description),
        ("code", .arr (encodeOpcodeList p.code)),
        ("entry", encodeOptStr p.entry)]

/-- serde deserialization of a Program: id, name and code are required,
description and entry default to None. -/
def decodeProgram : Json → Option Program
  | .obj fields =>
    match fieldR fields "id" asStr, fieldR fields "name" asStr,
          fieldD fields "description" asOptStr none,
          (match lookupJ fields "code" with
           | some (.arr xs) => decodeOpcodeList xs
           | _ => none),
          fieldD fields "entry" asOptStr none with
    | some i, some n, some d, some c, some e => some ⟨i, n, d, c, e⟩
    | _, _, _, _, _ => none
  | _ => none

/-- C7. Round-trip of the wire encoding: serializing any Program with the
canonical JSON encoder and deserializing the result yields a structurally
equal value. -/
theorem program_wire_roundtrip (pr : Program) :
    decodeProgram (encodeProgram pr) = some pr := by
  cases pr with
  | mk i n d c e =>
    have ih := decodeOpcodeList_encodeOpcodeList c
    simp [encodeProgram, decodeProgram, lookupJ, fieldR, fieldD, asStr, ih]

/-- The JSON object the spec gives for the INJECT opcode. -/
def injectRequestJson : Json :=
  .obj [("op", .str "INJECT"), ("prompt", .str "generate the next steps"),
        ("store_to", .str "r")]

/-- The JSON object the spec gives for the INFER_BATCH opcode. -/
def inferBatchRequestJson : Json :=
  .obj [("op", .str "INFER_BATCH"), ("prompts", .arr [.str "a", .str "b"]),
        ("store_prefix", .str "result")]

/-- C2 counterexample. Deserializing the spec's INJECT and INFER_BATCH
objects into Opcode fails: the enum has no such variants (its tags run
LOAD..CLEAR), so the wire format does not accept every canonical variant
the spec lists. -/
theorem inject_and_infer_batch_are_rejected :
    decodeOpcode injectRequestJson = none
    ∧ decodeOpcode inferBatchRequestJson = none :=
  ⟨rfl, rfl⟩

/-- C2 as amended. The wire format accepts the canonical variants that the
Opcode enum actually has — for instance INFER {prompt, store_to} and PLAN
{goal, store_to} deserialize to the corresponding variants — while objects
tagged INJECT or INFER_BATCH are rejected: injection and batched inference
exist only as interpreter request types, not as opcodes. -/
theorem wire_format_accepts_actual_variants_only :
    decodeOpcode (.obj [("op", .str "INFER"), ("prompt", .str "p"),
        ("store_to", .str "r")])
      = some (.infer "p" [] "r" ⟨none, none, none⟩)
    ∧ decodeOpcode (.obj [("op", .str "PLAN"), ("goal", .str "g"),
        ("store_to", .str "r")])
      = some (.plan "g" [] "r")
    ∧ decodeOpcode injectRequestJson = none
    ∧ decodeOpcode inferBatchRequestJson = none :=
  ⟨rfl, rfl, rfl, rfl⟩

-- ==========================================================================
-- session.rs and agent.rs: page indexing summaries (claim C4)
-- ==========================================================================

/-- Vec::join with a separator. -/
def joinSep (sep : String) : List String → String
  | [] => ""
  | [x] => x
  | x :: y :: rest => x ++ sep ++ joinSep sep (y :: rest)

/-- session.rs PageIndex. -/
structure PageIndex where
  id : String
  summary : String
  tokens : Nat
  content_type : Option String
  created_at : Nat
  accessed_at : Nat
  loaded : Bool

/-- session.rs SessionStatus. -/
inductive SessionStatus where
  | active
  | completed
  | failed
  | abandoned

/-- session.rs SessionMetadata. -/
structure SessionMetadata where
  id : String
  task : String
  created_at : Nat
  updated_at : Nat
  total_steps : Nat
  llm_calls : Nat
  status : SessionStatus

/-- session.rs TraceSummary. -/
structure TraceSummary where
  step : Nat
  opcode : String
  result : String
  had_error : Bool

/-- session.rs Session (active_memory is the non-persisted working memory). -/
structure Session where
  metadata : SessionMetadata
  page_index : List (String × PageIndex)
  trace_summary : List TraceSummary
  active_memory : Memory

/-- HashMap::insert for the page index. -/
def insertIdx (l : List (String × PageIndex)) (key : String) (v : PageIndex) :
    List (String × PageIndex) :=
  if l.any (fun kv => kv.1 = key) then
    l.map (fun kv => if kv.1 = key then (key, v) else kv)
  else l ++ [(key, v)]

/-- HashMap::get for the page index. -/
def lookupIdx : List (String × PageIndex) → String → Option PageIndex
  | [], _ => none
  | kv :: rest, key => if kv.1 = key then some kv.2 else lookupIdx rest key

/-- session.rs Session::auto_summarize. The source's catch-all arm formats
the remaining scalar shapes with the Debug formatter; the match spells out
the three shapes that can reach it. -/
def auto_summarize (page : MemoryPage) : String :=
  match page.content with
  | .str s =>
    let preview := String.mk (s.data.take 100)
    if s.utf8ByteSize > 100 then preview ++ "..." else preview
  | .obj members =>
    "Object with keys: " ++ joinSep ", " ((members.map Prod.fst).take 5)
  | .arr items => "Array with " ++ toString items.length ++ " items"
  | .null => "Null"
  | .bool b => "Bool(" ++ (if b then "true" else "false") ++ ")"
  | .num n => "Number(" ++ toString n ++ ")"

/-- session.rs Session::index_page: records the page's size_tokens and the
given summary, falling back to auto_summarize. -/
def Session.index_page (sess : Session) (page : MemoryPage)
    (summary : Option String) : Session :=
  let s := summary.getD (auto_summarize page)
  { sess with
    page_index := insertIdx sess.page_index page.id
      { id := page.id
        summary := s
        tokens := page.size_tokens
        content_type := page.label
        created_at := page.created_at
        accessed_at := page.accessed_at
        loaded := true } }

/-- Rust Debug escaping of a string (the printable fragment: quote,
backslash and the common control characters). -/
def rustDebugEscape (s : String) : String :=
  String.join (s.data.map fun c =>
    if c = '"' then "\""
    else if c = '\\' then "\\\\"
    else if c = '\n' then "\\n"
    else if c = '\r' then "\\r"
    else if c = '\t' then "\\t"
    else String.singleton c)

/-- The Debug rendering of a vector of strings, as format {:?} produces. -/
def rustDebugStrList (l : List String) : String :=
  "[" ++ joinSep ", " (l.map fun k => "\"" ++ rustDebugEscape k ++ "\"") ++ "]"

/-- The longest char-boundary prefix of at most n bytes: the byte slice
&s[..n] of agent.rs (which panics off a boundary, outside this model). -/
def takeBytes : List Char → Nat → List Char
  | [], _ => []
  | c :: cs, n => if c.utf8Size ≤ n then c :: takeBytes cs (n - c.utf8Size) else []

/-- Byte-prefix slice of a string. -/
def byteSliceTo (s : String) (n : Nat) : String := String.mk (takeBytes s.data n)

/-- agent.rs summarize_value: the summary the orchestrator computes when it
persists pages to the session (60-byte string truncation, Debug-formatted
full key list, array count; anything else is Display-formatted, which for
serde_json is the compact serialization). -/
def summarize_value (content : Json) : String :=
  match content with
  | .str s => if s.utf8ByteSize > 60 then byteSliceTo s 60 ++ "..." else s
  | .obj members => "Object with keys: " ++ rustDebugStrList (members.map Prod.fst)
  | .arr items => "Array with " ++ toString items.length ++ " items"
  | other => jsonToString other

/-- agent.rs Agent::save_to_session, the per-page index entry it records:
tokens from a freshly built MemoryPage, the summarize_value summary, and
loaded = false. -/
def agentPageIndexEntry (page_id : String) (content : Json) (now : Nat) : PageIndex :=
  { id := page_id
    summary := summarize_value content
    tokens := (MemoryPage.new page_id content now).size_tokens
    content_type := none
    created_at := now
    accessed_at := now
    loaded := false }

/-- Modelled from the claim's words (spec 4.D): the summary the claim
prescribes for an object, at most five key names after the fixed prefix. -/
def claimObjectSummary (members : List (String × Json)) : String :=
  "Object with keys: " ++ joinSep ", " ((members.map Prod.fst).take 5)

/-- A six-key object, as a page content. -/
def sixKeyObject : Json :=
  .obj [("a", .null), ("b", .null), ("c", .null),
        ("d", .null), ("e", .null), ("f", .null)]

/-- C4 counterexample. For a six-key object persisted through the
orchestrator, the recorded summary is the Debug rendering of all six keys,
not the prescribed five comma-joined key names. -/
theorem orchestrator_summary_diverges_from_claim :
    (agentPageIndexEntry "p" sixKeyObject 0).summary
      = "Object with keys: [\"a\", \"b\", \"c\", \"d\", \"e\", \"f\"]"
    ∧ claimObjectSummary [("a", .null), ("b", .null), ("c", .null),
        ("d", .null), ("e", .null), ("f", .null)]
      = "Object with keys: a, b, c, d, e"
    ∧ (agentPageIndexEntry "p" sixKeyObject 0).summary
      ≠ claimObjectSummary [("a", .null), ("b", .null), ("c", .null),
          ("d", .null), ("e", .null), ("f", .null)] :=
  ⟨rfl, rfl, by decide⟩

/-- Looking up a freshly inserted index entry returns it. -/
theorem lookupIdx_map_replace (l : List (String × PageIndex)) (key : String)
    (v : PageIndex) (h : (l.any fun kv => kv.1 = key) = true) :
    lookupIdx (l.map fun kv => if kv.1 = key then (key, v) else kv) key = some v := by
  induction l with
  | nil => simp at h
  | cons kv rest ih =>
    simp only [List.map_cons]
    by_cases hk : kv.1 = key
    · rw [if_pos hk, lookupIdx, if_pos rfl]
    · rw [if_neg hk, lookupIdx, if_neg hk]
      apply ih
      simp only [List.any_cons, Bool.or_eq_true] at h
      rcases h with h | h
      · exact absurd (by simpa using h) hk
      · exact h

theorem lookupIdx_append_fresh (l : List (String × PageIndex)) (key : String)
    (v : PageIndex) (h : ¬ (l.any fun kv => kv.1 = key) = true) :
    lookupIdx (l ++ [(key, v)]) key = some v := by
  induction l with
  | nil => simp [lookupIdx]
  | cons kv rest ih =>
    have hk : ¬ kv.1 = key := by
      intro hx
      exact h (by simp [List.any_cons, hx])
    rw [List.cons_append, lookupIdx, if_neg hk]
    apply ih
    intro hx
    apply h
    simp only [List.any_cons, Bool.or_eq_true]
    exact Or.inr hx

/-- Looking up a freshly inserted index entry returns it. -/
theorem lookupIdx_insertIdx (l : List (String × PageIndex)) (key : String)
    (v : PageIndex) : lookupIdx (insertIdx l key v) key = some v := by
  unfold insertIdx
  split
  case isTrue hc => exact lookupIdx_map_replace l key v hc
  case isFalse hc => exact lookupIdx_append_fresh l key v hc

/-- C4 as amended. When a page is committed through Session::index_page
with no explicit summary, the recorded entry carries tokens equal to the
page's size_tokens and the auto_summarize summary: for strings the first
100 characters with "..." appended exactly when the UTF-8 byte length
exceeds 100, for objects the first five key names after "Object with
keys: ", for arrays "Array with N items". The orchestrator's persistence
path instead records tokens = estimate_tokens(content) together with
summarize_value: for strings the first 60 bytes with "..." when the byte
length exceeds 60, for objects the Debug-formatted list of all keys, for
arrays "Array with N items". -/
theorem session_indexing_summaries (sess : Session) (page : MemoryPage)
    (id s : String) (members : List (String × Json)) (items : List Json)
    (sz : Nat) (d : Bool) (lb : Option String) (c a : Nat)
    (page_id : String) (content : Json) (now : Nat) :
    lookupIdx ((sess.index_page page none).page_index) page.id
      = some { id := page.id
               summary := auto_summarize page
               tokens := page.size_tokens
               content_type := page.label
               created_at := page.created_at
               accessed_at := page.accessed_at
               loaded := true }
    ∧ auto_summarize ⟨id, .str s, sz, d, lb, c, a⟩
      = (if s.utf8ByteSize > 100 then String.mk (s.data.take 100) ++ "..."
         else String.mk (s.data.take 100))
    ∧ auto_summarize ⟨id, .obj members, sz, d, lb, c, a⟩
      = "Object with keys: " ++ joinSep ", " ((members.map Prod.fst).take 5)
    ∧ auto_summarize ⟨id, .arr items, sz, d, lb, c, a⟩
      = "Array with " ++ toString items.length ++ " items"
    ∧ (agentPageIndexEntry page_id content now).tokens = estimate_tokens content
    ∧ (agentPageIndexEntry page_id content now).summary = summarize_value content
    ∧ summarize_value (.str s)
      = (if s.utf8ByteSize > 60 then byteSliceTo s 60 ++ "..." else s)
    ∧ summarize_value (.obj members)
      = "Object with keys: " ++ rustDebugStrList (members.map Prod.fst)
    ∧ summarize_value (.arr items)
      = "Array with " ++ toString items.length ++ " items" :=
  ⟨lookupIdx_insertIdx _ _ _, rfl, rfl, rfl, rfl, rfl, rfl, rfl, rfl⟩

/-! ### C5: Agent::parse_program (agent.rs 209-229)

The agent extracts a JSON fragment from the provider content (stripping
markdown fences) and feeds it to serde_json::from_str::<Program>. Rust
strings are modelled as lists of chars. The serde_json text parser is
modelled below restricted to the embedded Json type: numbers must be
integers (a fraction or exponent part makes an f64, which is outside the
embedding, so the model rejects it). -/

/-- The Unicode White_Space property, the set char::is_whitespace tests
and Rust str::trim strips. -/
def rustWs (c : Char) : Bool :=
  (0x9 ≤ c.toNat && c.toNat ≤ 0xD) || c.toNat = 0x20 || c.toNat = 0x85 ||
  c.toNat = 0xA0 || c.toNat = 0x1680 ||
  (0x2000 ≤ c.toNat && c.toNat ≤ 0x200A) ||
  c.toNat = 0x2028 || c.toNat = 0x2029 || c.toNat = 0x202F ||
  c.toNat = 0x205F || c.toNat = 0x3000

/-- Rust str::trim: strip leading and trailing whitespace. -/
def trimChars (l : List Char) : List Char :=
  ((l.dropWhile rustWs).reverse.dropWhile rustWs).reverse

/-- Rust str::find of a substring: index of the leftmost occurrence. -/
def findSub : List Char → List Char → Option Nat
  | [], pat => if pat.isEmpty then some 0 else none
  | c :: rest, pat =>
    if pat.isPrefixOf (c :: rest) then some 0
    else (findSub rest pat).map (fun i => i + 1)

/-- Rust str::contains of a substring. -/
def containsSub (l pat : List Char) : Bool :=
  (findSub l pat).isSome

/-- Rust str::split on a substring pattern, fuelled (each step past a
nonempty pattern consumes at least one char, so length + 1 suffices). -/
def splitOnSubF : Nat → List Char → List Char → List (List Char)
  | 0, l, _ => [l]
  | fuel + 1, l, pat =>
    match findSub l pat with
    | none => [l]
    | some i => l.take i :: splitOnSubF fuel (l.drop (i + pat.length)) pat

/-- Rust str::split on a substring pattern, as the list of segments. -/
def splitOnSub (l pat : List Char) : List (List Char) :=
  splitOnSubF (l.length + 1) l pat

/-- Agent::parse_program's fence stripping (agent.rs 210-225): if the
content contains a json-tagged fence, take the text after the first such
fence up to the next fence and trim it; otherwise if it contains a bare
fence, take the text between the first and second fence and trim it;
otherwise trim the whole content. The two fenced branches fall back to
the untrimmed content when nth(1) is absent (unreachable under the
contains guard, kept for fidelity; split's first segment always exists). -/
def extract_json_str (content : List Char) : List Char :=
  if containsSub content ("```json".data) then
    match (splitOnSub content ("```json".data)).get? 1 with
    | some s =>
      match (splitOnSub s ("```".data)).head? with
      | some t => trimChars t
      | none => content
    | none => content
  else if containsSub content ("```".data) then
    match (splitOnSub content ("```".data)).get? 1 with
    | some s => trimChars s
    | none => content
  else trimChars content

/-- JSON whitespace as serde_json accepts it: space, tab, LF, CR. -/
def jsonWs (c : Char) : Bool :=
  c.toNat = 0x20 || c.toNat = 0x9 || c.toNat = 0xA || c.toNat = 0xD

/-- Skip JSON whitespace. -/
def skipWs : List Char → List Char
  | c :: cs => if jsonWs c then skipWs cs else c :: cs
  | [] => []

/-- ASCII digit test. -/
def isAsciiDigit (c : Char) : Bool :=
  0x30 ≤ c.toNat && c.toNat ≤ 0x39

/-- Hex digit value. -/
def hexVal (c : Char) : Option Nat :=
  if 0x30 ≤ c.toNat && c.toNat ≤ 0x39 then some (c.toNat - 0x30)
  else if 0x41 ≤ c.toNat && c.toNat ≤ 0x46 then some (c.toNat - 0x37)
  else if 0x61 ≤ c.toNat && c.toNat ≤ 0x66 then some (c.toNat - 0x57)
  else none

/-- The opening and closing braces, named so that no brace appears in a
character literal. -/
def lbrace : Char := Char.ofNat 0x7B

/-- See lbrace. -/
def rbrace : Char := Char.ofNat 0x7D

/-- The eight short JSON escapes. -/
def simpleEsc (e : Char) : Option Char :=
  if e = '"' then some '"'
  else if e = '\\' then some '\\'
  else if e = '/' then some '/'
  else if e = 'b' then some (Char.ofNat 0x8)
  else if e = 'f' then some (Char.ofNat 0xC)
  else if e = 'n' then some '\n'
  else if e = 'r' then some (Char.ofNat 0xD)
  else if e = 't' then some '\t'
  else none

/-- Four hex digits. -/
def hex4 (a b c d : Char) : Option Nat :=
  match hexVal a, hexVal b, hexVal c, hexVal d with
  | some x, some y, some z, some w => some (((x * 16 + y) * 16 + z) * 16 + w)
  | _, _, _, _ => none

mutual
/-- serde_json string scanner, after the opening quote (fuelled; each
tick consumes at least one char, so any fuel above the input length
behaves identically). parseStringBody returns the decoded string and
the input after the closing quote. Control characters must be escaped;
parseEscape decodes the eight short escapes and hands \uXXXX to
parseUnicodeEsc, which pairs a high surrogate with a following low one
via parseLowSurrogate (lone surrogates are rejected). -/
def parseStringBody : Nat → List Char → List Char → Option (String × List Char)
  | 0, _, _ => none
  | fuel + 1, acc, cs =>
    match cs with
    | [] => none
    | c :: cs0 =>
      if c = '"' then some (String.mk acc.reverse, cs0)
      else if c = '\\' then parseEscape fuel acc cs0
      else if c.toNat < 0x20 then none
      else parseStringBody fuel (c :: acc) cs0

def parseEscape : Nat → List Char → List Char → Option (String × List Char)
  | 0, _, _ => none
  | fuel + 1, acc, cs =>
    match cs with
    | [] => none
    | e :: cs1 =>
      match simpleEsc e with
      | some d => parseStringBody fuel (d :: acc) cs1
      | none => if e = 'u' then parseUnicodeEsc fuel acc cs1 else none

def parseUnicodeEsc : Nat → List Char → List Char → Option (String × List Char)
  | 0, _, _ => none
  | fuel + 1, acc, cs =>
    match cs with
    | a1 :: a2 :: a3 :: a4 :: cs2 =>
      match hex4 a1 a2 a3 a4 with
      | none => none
      | some n =>
        if 0xD800 ≤ n && n ≤ 0xDBFF then parseLowSurrogate fuel acc n cs2
        else if 0xDC00 ≤ n && n ≤ 0xDFFF then none
        else parseStringBody fuel (Char.ofNat n :: acc) cs2
    | _ => none

def parseLowSurrogate : Nat → List Char → Nat → List Char → Option (String × List Char)
  | 0, _, _, _ => none
  | fuel + 1, acc, n, cs =>
    match cs with
    | b1 :: b2 :: b3 :: b4 :: b5 :: b6 :: cs3 =>
      if b1 = '\\' then
        if b2 = 'u' then
          match hex4 b3 b4 b5 b6 with
          | none => none
          | some m =>
            if 0xDC00 ≤ m && m ≤ 0xDFFF then
              parseStringBody fuel
                (Char.ofNat (0x10000 + (n - 0xD800) * 0x400 + (m - 0xDC00)) :: acc) cs3
            else none
        else none
      else none
    | _ => none
end

/-- The maximal leading digit run and what follows it. -/
def takeDigits : List Char → List Char × List Char
  | [] => ([], [])
  | c :: cs =>
    if isAsciiDigit c then
      let p := takeDigits cs
      (c :: p.1, p.2)
    else ([], c :: cs)

/-- Digit run to number. -/
def digitsToNat (ds : List Char) : Nat :=
  ds.foldl (fun a c => a * 10 + (c.toNat - 0x30)) 0

/-- A char that would extend a just-parsed integer or make it a float. -/
def numCont (c : Char) : Bool :=
  isAsciiDigit c || c = '.' || c = 'e' || c = 'E'

/-- Whether the input continues with a fraction or exponent part. -/
def headFloat : List Char → Bool
  | c :: _ => c = '.' || c = 'e' || c = 'E'
  | [] => false

/-- Whether a continuation cannot extend or floatify a number. -/
def headOkNum : List Char → Bool
  | [] => true
  | c :: _ => !(numCont c)

/-- Unsigned integer part: 0, or a run led by a nonzero digit. A
following fraction or exponent part is rejected (floats are outside the
embedding). -/
def parseNumAbs (cs : List Char) : Option (Nat × List Char) :=
  match cs with
  | [] => none
  | c :: rest =>
    if c = '0' then if headFloat rest then none else some (0, rest)
    else if isAsciiDigit c then
      let p := takeDigits rest
      if headFloat p.2 then none else some (digitsToNat (c :: p.1), p.2)
    else none

/-- JSON number (integer): optional minus then the integer part. -/
def parseNumber (cs : List Char) : Option (Json × List Char) :=
  match cs with
  | [] => none
  | c :: rest =>
    if c = '-' then
      match parseNumAbs rest with
      | some (n, r) => some (.num (-(n : Int)), r)
      | none => none
    else
      match parseNumAbs (c :: rest) with
      | some (n, r) => some (.num ((n : Int)), r)
      | none => none

/-- Match an expected literal tail. -/
def expectLit : List Char → List Char → Option (List Char)
  | [], cs => some cs
  | _ :: _, [] => none
  | e :: es, c :: cs => if c = e then expectLit es cs else none

/-- serde_json object building: repeated Map::insert, which keeps the
first occurrence's position and the last occurrence's value. -/
def objInsertSeq (raw : List (String × Json)) : List (String × Json) :=
  raw.foldl (fun acc kv =>
    if acc.any (fun p => p.1 = kv.1) then
      acc.map (fun p => if p.1 = kv.1 then (p.1, kv.2) else p)
    else acc ++ [kv]) []

mutual
/-- serde_json value parsing from text. Expects its input to start at a
non-whitespace character (callers skip whitespace first). -/
def parseValue : Nat → List Char → Option (Json × List Char)
  | 0, _ => none
  | _ + 1, [] => none
  | fuel + 1, c :: cs =>
    if c = 'n' then
      match expectLit ['u', 'l', 'l'] cs with
      | some r => some (.null, r)
      | none => none
    else if c = 't' then
      match expectLit ['r', 'u', 'e'] cs with
      | some r => some (.bool true, r)
      | none => none
    else if c = 'f' then
      match expectLit ['a', 'l', 's', 'e'] cs with
      | some r => some (.bool false, r)
      | none => none
    else if c = '"' then
      match parseStringBody fuel [] cs with
      | some (s, r) => some (.str s, r)
      | none => none
    else if c = '[' then
      match skipWs cs with
      | d :: r =>
        if d = ']' then some (.arr [], r)
        else
          match parseElems fuel (d :: r) with
          | some (vs, r2) => some (.arr vs, r2)
          | none => none
      | [] => none
    else if c = lbrace then
      match skipWs cs with
      | d :: r =>
        if d = rbrace then some (.obj [], r)
        else
          match parseMembers fuel (d :: r) with
          | some (ms, r2) => some (.obj (objInsertSeq ms), r2)
          | none => none
      | [] => none
    else if c = '-' || isAsciiDigit c then parseNumber (c :: cs)
    else none

/-- One or more comma-separated array elements up to the closing bracket
(whitespace already skipped). -/
def parseElems : Nat → List Char → Option (List Json × List Char)
  | 0, _ => none
  | fuel + 1, cs =>
    match parseValue fuel cs with
    | some (v, r1) =>
      match skipWs r1 with
      | d :: r2 =>
        if d = ',' then
          match parseElems fuel (skipWs r2) with
          | some (vs, r3) => some (v :: vs, r3)
          | none => none
        else if d = ']' then some ([v], r2)
        else none
      | [] => none
    | none => none

/-- One or more comma-separated object members up to the closing brace
(whitespace already skipped). -/
def parseMembers : Nat → List Char → Option (List (String × Json) × List Char)
  | 0, _ => none
  | fuel + 1, cs =>
    match cs with
    | [] => none
    | c :: cs1 =>
      if c = '"' then
        match parseStringBody fuel [] cs1 with
        | some (k, r1) =>
          match skipWs r1 with
          | d :: r2 =>
            if d = ':' then
              match parseValue fuel (skipWs r2) with
              | some (v, r3) =>
                match skipWs r3 with
                | d2 :: r4 =>
                  if d2 = ',' then
                    match parseMembers fuel (skipWs r4) with
                    | some (ms, r5) => some ((k, v) :: ms, r5)
                    | none => none
                  else if d2 = rbrace then some ([(k, v)], r4)
                  else none
                | [] => none
              | none => none
            else none
          | [] => none
        | none => none
      else none
end

/-- serde_json::from_str on a Value: optional whitespace, one value,
optional trailing whitespace, end of input. The fuel suffices: by
parseValue_spec any fuel above the consumed length does. -/
def jsonFromChars (cs : List Char) : Option Json :=
  match parseValue ((skipWs cs).length + 1) (skipWs cs) with
  | some (v, rest) => if (skipWs rest).isEmpty then some v else none
  | none => none

/-- serde_json::from_str::<Program>. -/
def from_str_program (s : String) : Option Program :=
  (jsonFromChars s.data).bind decodeProgram

/-- Agent::parse_program: extract the JSON fragment and deserialize it;
on failure the Err string echoes the extracted fragment (the serde
message before the Content: line is not modelled). -/
def parse_program (content : String) : Except String Program :=
  match (jsonFromChars (extract_json_str content.data)).bind decodeProgram with
  | some p => .ok p
  | none => .error (String.mk (extract_json_str content.data))

/-- A syntactically valid program JSON whose entry string mentions a
json-tagged fence marker. -/
def fencedFieldProgramText : String :=
  "\x7b\"id\":\"x\",\"name\":\"y\",\"code\":[],\"entry\":\"```json\"\x7d"

/-- C5 counterexample. serde_json::from_str parses
fencedFieldProgramText to a Program, but parse_program's fence
stripping cuts at the fence marker inside the entry string and fails,
echoing the mangled fragment: parse_program does not succeed on every
raw valid program JSON. -/
theorem parse_program_rejects_valid_json_with_fence :
    from_str_program fencedFieldProgramText
      = some ⟨"x", "y", none, [], some "```json"⟩
    ∧ parse_program fencedFieldProgramText = .error "\"\x7d" :=
  ⟨rfl, rfl⟩

/-- Characters differing in codepoint differ. -/
theorem char_ne_of_toNat_ne {c d : Char} (h : c.toNat ≠ d.toNat) : c ≠ d :=
  fun he => h (by rw [he])

/-- JSON whitespace is Rust whitespace. -/
theorem jsonWs_rustWs {c : Char} (h : jsonWs c = true) : rustWs c = true := by
  simp [jsonWs] at h
  simp [rustWs]
  omega

/-- A whitespace char is not any concrete non-whitespace char. -/
theorem ne_char_of_ws {c : Char} (h : rustWs c = true) (d : Char)
    (hd : rustWs d = false) : ¬ c = d := by
  intro he
  rw [he, hd] at h
  exact absurd h (by simp)

/-- A whitespace char is not a digit. -/
theorem ws_not_digit {c : Char} (h : rustWs c = true) :
    isAsciiDigit c = false := by
  cases hd : isAsciiDigit c
  · rfl
  · exfalso
    simp [rustWs] at h
    simp [isAsciiDigit] at hd
    omega

/-- A whitespace char cannot continue a number. -/
theorem ws_not_numCont {c : Char} (h : rustWs c = true) :
    numCont c = false := by
  simp [numCont, ws_not_digit h]
  exact ⟨⟨ne_char_of_ws h '.' (by decide), ne_char_of_ws h 'e' (by decide)⟩,
         ne_char_of_ws h 'E' (by decide)⟩

/-- skipWs does nothing on a non-whitespace head. -/
theorem skipWs_cons_neg {c : Char} (h : jsonWs c = false) (l : List Char) :
    skipWs (c :: l) = c :: l := by
  simp [skipWs, h]

/-- skipWs swallows an all-whitespace prefix. -/
theorem skipWs_all_append {w : List Char} (h : ∀ c ∈ w, jsonWs c = true)
    (l : List Char) : skipWs (w ++ l) = skipWs l := by
  induction w with
  | nil => rfl
  | cons c w ih =>
    simp only [List.cons_append, skipWs]
    rw [if_pos (h c (by simp))]
    exact ih (fun d hd => h d (by simp [hd]))

/-- skipWs removes an all-whitespace prefix and keeps the rest. -/
theorem skipWs_decomp (l : List Char) :
    ∃ w, l = w ++ skipWs l ∧ ∀ c ∈ w, jsonWs c = true := by
  induction l with
  | nil => exact ⟨[], rfl, by simp⟩
  | cons c l ih =>
    by_cases hc : jsonWs c = true
    · obtain ⟨w, hw, hall⟩ := ih
      refine ⟨c :: w, ?_, ?_⟩
      · simp only [skipWs, if_pos hc, List.cons_append]
        exact congrArg (c :: ·) hw
      · intro d hd
        rcases List.mem_cons.mp hd with h1 | h2
        · rw [h1]; exact hc
        · exact hall d h2
    · refine ⟨[], ?_, by simp⟩
      simp only [skipWs, if_neg hc, List.nil_append]

/-- The head surviving skipWs is not whitespace. -/
theorem skipWs_head {l : List Char} {c : Char} {r : List Char}
    (h : skipWs l = c :: r) : jsonWs c = false := by
  induction l with
  | nil => simp [skipWs] at h
  | cons d l ih =>
    by_cases hd : jsonWs d = true
    · simp only [skipWs, if_pos hd] at h
      exact ih h
    · simp only [skipWs, if_neg hd] at h
      cases h
      cases hb : jsonWs c
      · rfl
      · exact absurd hb hd

/-- If skipWs consumes everything, everything was whitespace. -/
theorem skipWs_nil_mem {l : List Char} (h : skipWs l = []) :
    ∀ c ∈ l, jsonWs c = true := by
  induction l with
  | nil => simp
  | cons d l ih =>
    by_cases hd : jsonWs d = true
    · simp only [skipWs, if_pos hd] at h
      intro c hc
      rcases List.mem_cons.mp hc with h1 | h2
      · rw [h1]; exact hd
      · exact ih h c h2
    · simp only [skipWs, if_neg hd] at h
      exact absurd h (List.cons_ne_nil d l)

/-- dropWhile swallows a prefix it accepts entirely. -/
theorem dropWhile_all_append {α : Type} {p : α → Bool} {w : List α}
    (h : ∀ c ∈ w, p c = true) (l : List α) :
    List.dropWhile p (w ++ l) = List.dropWhile p l := by
  induction w with
  | nil => rfl
  | cons c w ih =>
    simp only [List.cons_append, List.dropWhile_cons]
    rw [if_pos (h c (by simp))]
    exact ih (fun d hd => h d (by simp [hd]))

/-- dropWhile empties a list it accepts entirely. -/
theorem dropWhile_all_nil {α : Type} {p : α → Bool} {w : List α}
    (h : ∀ c ∈ w, p c = true) : List.dropWhile p w = [] := by
  have := dropWhile_all_append h ([] : List α)
  rwa [List.append_nil] at this

/-- trim ignores a leading whitespace run. -/
theorem trimChars_ws_left {w l : List Char} (h : ∀ c ∈ w, rustWs c = true) :
    trimChars (w ++ l) = trimChars l := by
  unfold trimChars
  rw [dropWhile_all_append h]

/-- trim ignores a trailing whitespace run. -/
theorem trimChars_ws_right {l b : List Char} (h : ∀ c ∈ b, rustWs c = true) :
    trimChars (l ++ b) = trimChars l := by
  unfold trimChars
  rw [List.dropWhile_append]
  cases hd : List.dropWhile rustWs l with
  | nil =>
    simp only [List.isEmpty_nil, if_true]
    rw [dropWhile_all_nil h]
  | cons x xs =>
    simp only [List.isEmpty_cons, if_false, Bool.false_eq_true]
    rw [List.reverse_append,
        dropWhile_all_append (fun c hc => h c (List.mem_reverse.mp hc))]

/-- trim ignores whitespace wrapping. -/
theorem trimChars_wrap {a l b : List Char} (ha : ∀ c ∈ a, rustWs c = true)
    (hb : ∀ c ∈ b, rustWs c = true) :
    trimChars (a ++ l ++ b) = trimChars l := by
  rw [trimChars_ws_right hb, trimChars_ws_left ha]

/-- trim does nothing when both ends are non-whitespace. -/
theorem trimChars_eq_self {l : List Char}
    (h1 : ∀ c, l.head? = some c → rustWs c = false)
    (h2 : ∀ c, l.getLast? = some c → rustWs c = false) : trimChars l = l := by
  cases l with
  | nil => rfl
  | cons c lt =>
    unfold trimChars
    rw [List.dropWhile_cons, if_neg (by simp [h1 c rfl])]
    obtain ⟨d, rd, hr⟩ : ∃ d rd, (c :: lt).reverse = d :: rd := by
      cases hrv : (c :: lt).reverse with
      | nil => exact absurd (congrArg List.length hrv) (by simp)
      | cons d rd => exact ⟨d, rd, rfl⟩
    have hdlast : (c :: lt).getLast? = some d := by
      rw [← List.head?_reverse, hr]
      rfl
    rw [hr, List.dropWhile_cons, if_neg (by simp [h2 d hdlast]), ← hr,
        List.reverse_reverse]

/-- The last element of a list is an element. -/
theorem getLast?_mem_own {α : Type} :
    ∀ {l : List α} {a : α}, l.getLast? = some a → a ∈ l := by
  intro l
  induction l with
  | nil => intro a h; cases h
  | cons x xs ih =>
    intro a h
    cases xs with
    | nil =>
      simp [List.getLast?] at h
      simp [h]
    | cons y ys =>
      rw [List.getLast?_cons_cons] at h
      exact List.mem_cons_of_mem x (ih h)

/-- A digit is not whitespace. -/
theorem digit_not_ws {c : Char} (h : isAsciiDigit c = true) :
    rustWs c = false := by
  cases hw : rustWs c
  · rfl
  · exfalso
    simp [isAsciiDigit] at h
    simp [rustWs] at hw
    omega

/-- The consumed text ends in a non-whitespace char. -/
def lastNonWs (x : List Char) : Prop :=
  ∀ c, x.getLast? = some c → rustWs c = false

/-- A successful expectLit consumed exactly the expected literal. -/
theorem expectLit_decomp :
    ∀ {es cs r : List Char}, expectLit es cs = some r → cs = es ++ r := by
  intro es
  induction es with
  | nil =>
    intro cs r h
    simp [expectLit] at h
    simp [h]
  | cons e es ih =>
    intro cs r h
    cases cs with
    | nil => simp [expectLit] at h
    | cons c cs =>
      simp only [expectLit] at h
      by_cases hc : c = e
      · rw [if_pos hc] at h
        rw [hc, ih h, List.cons_append]
      · rw [if_neg hc] at h
        cases h

/-- expectLit accepts its own literal. -/
theorem expectLit_self : ∀ (es t : List Char), expectLit es (es ++ t) = some t := by
  intro es t
  induction es with
  | nil => rfl
  | cons e es ih =>
    simp only [List.cons_append, expectLit, if_pos rfl]
    exact ih

/-- takeDigits splits off the maximal leading digit run. -/
theorem takeDigits_spec : ∀ cs : List Char,
    cs = (takeDigits cs).1 ++ (takeDigits cs).2 ∧
    (∀ c ∈ (takeDigits cs).1, isAsciiDigit c = true) ∧
    (∀ c r, (takeDigits cs).2 = c :: r → isAsciiDigit c = false) := by
  intro cs
  induction cs with
  | nil => exact ⟨rfl, by simp [takeDigits], by intro c r h; cases h⟩
  | cons c cs ih =>
    by_cases hc : isAsciiDigit c = true
    · simp only [takeDigits, if_pos hc]
      refine ⟨?_, ?_, ?_⟩
      · exact congrArg (c :: ·) ih.1
      · intro d hd
        rcases List.mem_cons.mp hd with h1 | h2
        · rw [h1]; exact hc
        · exact ih.2.1 d h2
      · exact ih.2.2
    · simp only [takeDigits, if_neg hc]
      refine ⟨rfl, by simp, ?_⟩
      intro d r h
      injection h with h1 _
      rw [← h1]
      cases hb : isAsciiDigit c
      · rfl
      · exact absurd hb hc

/-- takeDigits takes exactly an all-digit run followed by a non-digit. -/
theorem takeDigits_all_append {ds : List Char}
    (h : ∀ c ∈ ds, isAsciiDigit c = true) {t : List Char}
    (ht : ∀ c r, t = c :: r → isAsciiDigit c = false) :
    takeDigits (ds ++ t) = (ds, t) := by
  induction ds with
  | nil =>
    cases t with
    | nil => rfl
    | cons c r =>
      simp only [List.nil_append, takeDigits, ht c r rfl]
      rfl
  | cons c ds ih =>
    simp only [List.cons_append, takeDigits, if_pos (h c (by simp)), List.append_eq]
    rw [ih (fun d hd => h d (by simp [hd]))]

/-- A benign continuation has no float marker. -/
theorem headOkNum_not_float {t : List Char} (h : headOkNum t = true) :
    headFloat t = false := by
  cases t with
  | nil => rfl
  | cons c r =>
    have hnc : numCont c = false := by
      cases hb : numCont c
      · rfl
      · simp [headOkNum, hb] at h
    simp only [numCont, Bool.or_eq_false_iff] at hnc
    simp only [headFloat, Bool.or_eq_false_iff]
    exact ⟨⟨hnc.1.1.2, hnc.1.2⟩, hnc.2⟩

/-- A benign continuation does not start with a digit. -/
theorem headOkNum_not_digit {t : List Char} (h : headOkNum t = true) :
    ∀ c r, t = c :: r → isAsciiDigit c = false := by
  intro c r ht
  subst ht
  have hnc : numCont c = false := by
    cases hb : numCont c
    · rfl
    · simp [headOkNum, hb] at h
  simp only [numCont, Bool.or_eq_false_iff] at hnc
  exact hnc.1.1.1

/-- parseNumAbs consumed decomposition and suffix irrelevance. -/
theorem parseNumAbs_spec {cs : List Char} {n : Nat} {rest : List Char}
    (h : parseNumAbs cs = some (n, rest)) :
    ∃ x, cs = x ++ rest ∧ x ≠ [] ∧ (∀ c ∈ x, isAsciiDigit c = true) ∧
      ∀ t, headOkNum t = true → parseNumAbs (x ++ t) = some (n, t) := by
  cases cs with
  | nil => cases h
  | cons c rest0 =>
    simp only [parseNumAbs] at h
    by_cases h0 : c = '0'
    · rw [if_pos h0] at h
      cases hf : headFloat rest0 with
      | true => rw [hf] at h; simp at h
      | false =>
        rw [hf] at h
        rw [if_neg Bool.false_ne_true] at h
        injection h with h1
        injection h1 with hn hr
        refine ⟨['0'], by rw [h0, hr]; rfl, by simp, by simp [isAsciiDigit], ?_⟩
        intro t ht
        simp only [List.cons_append, List.nil_append, parseNumAbs,
          if_pos rfl, headOkNum_not_float ht, ← hn]
        simp
    · by_cases hd : isAsciiDigit c = true
      · rw [if_neg h0, if_pos hd] at h
        obtain ⟨hsplit, hall, hstop⟩ := takeDigits_spec rest0
        cases hf : headFloat (takeDigits rest0).2 with
        | true => rw [hf] at h; simp at h
        | false =>
          rw [hf] at h
          rw [if_neg Bool.false_ne_true] at h
          injection h with h1
          injection h1 with hn hr
          refine ⟨c :: (takeDigits rest0).1, ?_, by simp, ?_, ?_⟩
          · rw [← hr, List.cons_append, ← hsplit]
          · intro d hmem
            rcases List.mem_cons.mp hmem with h1 | h2
            · rw [h1]; exact hd
            · exact hall d h2
          · intro t ht
            simp only [List.cons_append, parseNumAbs, if_neg h0, if_pos hd]
            rw [takeDigits_all_append hall (headOkNum_not_digit ht)]
            simp only [headOkNum_not_float ht, ← hn]
            rw [if_neg Bool.false_ne_true]
      · rw [if_neg h0, if_neg hd] at h
        cases h

/-- parseNumber consumed decomposition and suffix irrelevance. -/
theorem parseNumber_spec {cs : List Char} {v : Json} {rest : List Char}
    (h : parseNumber cs = some (v, rest)) :
    ∃ x, cs = x ++ rest ∧ x ≠ [] ∧ lastNonWs x ∧
      ∀ t, headOkNum t = true → parseNumber (x ++ t) = some (v, t) := by
  cases cs with
  | nil => cases h
  | cons c rest0 =>
    simp only [parseNumber] at h
    by_cases hm : c = '-'
    · rw [if_pos hm] at h
      cases hna : parseNumAbs rest0 with
      | none => rw [hna] at h; cases h
      | some p =>
        rw [hna] at h
        obtain ⟨n, r⟩ := p
        injection h with h1
        injection h1 with hv hr
        obtain ⟨xa, hxa, hne, hall, repa⟩ := parseNumAbs_spec hna
        refine ⟨'-' :: xa, by rw [hm, ← hr, List.cons_append, ← hxa], by simp, ?_, ?_⟩
        · intro d hlast
          obtain ⟨c1, xa1, hc1⟩ : ∃ c1 xa1, xa = c1 :: xa1 := by
            cases xa with
            | nil => exact absurd rfl hne
            | cons c1 xa1 => exact ⟨c1, xa1, rfl⟩
          rw [hc1, List.getLast?_cons_cons] at hlast
          exact digit_not_ws (hall _ (by rw [hc1]; exact getLast?_mem_own hlast))
        · intro t ht
          simp [List.cons_append, parseNumber, repa t ht, ← hv]
    · cases hna : parseNumAbs (c :: rest0) with
      | none => rw [if_neg hm, hna] at h; cases h
      | some p =>
        rw [if_neg hm, hna] at h
        obtain ⟨n, r⟩ := p
        injection h with h1
        injection h1 with hv hr
        obtain ⟨xa, hxa, hne, hall, repa⟩ := parseNumAbs_spec hna
        refine ⟨xa, by rw [hr] at hxa; exact hxa, hne, ?_, ?_⟩
        · intro d hlast
          exact digit_not_ws (hall d (getLast?_mem_own hlast))
        · intro t ht
          obtain ⟨c1, xa1, hc1⟩ : ∃ c1 xa1, xa = c1 :: xa1 := by
            cases xa with
            | nil => exact absurd rfl hne
            | cons c1 xa1 => exact ⟨c1, xa1, rfl⟩
          subst hc1
          have hcc : c = c1 := by
            rw [List.cons_append] at hxa
            exact (List.cons.injEq .. |>.mp hxa).1
          have hm1 : ¬ c1 = '-' := by rw [← hcc]; exact hm
          have repa' := repa t ht
          rw [List.cons_append] at repa'
          simp [List.cons_append, parseNumber, if_neg hm1, repa', ← hv]

/-- Consumed decomposition and suffix irrelevance for the string
scanner family: a successful scan consumed everything up to and
including a closing quote, and replaying it on the consumed text plus
any other suffix, with any fuel above the consumed length, gives the
same string. -/
theorem parseStringFamily_spec : ∀ fuel : Nat,
    (∀ acc cs s rest, parseStringBody fuel acc cs = some (s, rest) →
      ∃ x, cs = x ++ '"' :: rest ∧ ∀ t fuel₂, x.length < fuel₂ →
        parseStringBody fuel₂ acc (x ++ '"' :: t) = some (s, t)) ∧
    (∀ acc cs s rest, parseEscape fuel acc cs = some (s, rest) →
      ∃ x, cs = x ++ '"' :: rest ∧ ∀ t fuel₂, x.length < fuel₂ →
        parseEscape fuel₂ acc (x ++ '"' :: t) = some (s, t)) ∧
    (∀ acc cs s rest, parseUnicodeEsc fuel acc cs = some (s, rest) →
      ∃ x, cs = x ++ '"' :: rest ∧ ∀ t fuel₂, x.length < fuel₂ →
        parseUnicodeEsc fuel₂ acc (x ++ '"' :: t) = some (s, t)) ∧
    (∀ acc n cs s rest, parseLowSurrogate fuel acc n cs = some (s, rest) →
      ∃ x, cs = x ++ '"' :: rest ∧ ∀ t fuel₂, x.length < fuel₂ →
        parseLowSurrogate fuel₂ acc n (x ++ '"' :: t) = some (s, t)) := by
  intro fuel
  induction fuel with
  | zero =>
    refine ⟨?_, ?_, ?_, ?_⟩
    · intro acc cs s rest h; cases h
    · intro acc cs s rest h; cases h
    · intro acc cs s rest h; cases h
    · intro acc n cs s rest h; cases h
  | succ f ih =>
    obtain ⟨ihS, ihE, ihU, ihL⟩ := ih
    refine ⟨?_, ?_, ?_, ?_⟩
    · intro acc cs s rest h
      cases cs with
      | nil => cases h
      | cons c cs0 =>
        simp only [parseStringBody] at h
        by_cases hq : c = '"'
        · rw [if_pos hq] at h
          injection h with h1
          injection h1 with hs hr
          refine ⟨[], by simp [hq, hr], ?_⟩
          intro t fuel₂ hf
          obtain ⟨g, rfl⟩ : ∃ g, fuel₂ = g + 1 := ⟨fuel₂ - 1, by omega⟩
          simp [parseStringBody, hs]
        · rw [if_neg hq] at h
          by_cases hb : c = '\\'
          · rw [if_pos hb] at h
            obtain ⟨x0, hx0, rep0⟩ := ihE acc cs0 s rest h
            refine ⟨c :: x0, by simp [hx0], ?_⟩
            intro t fuel₂ hf
            obtain ⟨g, rfl⟩ : ∃ g, fuel₂ = g + 1 := ⟨fuel₂ - 1, by omega⟩
            simp only [List.cons_append, parseStringBody, if_neg hq, if_pos hb]
            exact rep0 t g (by simp at hf; omega)
          · rw [if_neg hb] at h
            by_cases hctl : c.toNat < 0x20
            · rw [if_pos hctl] at h; cases h
            · rw [if_neg hctl] at h
              obtain ⟨x0, hx0, rep0⟩ := ihS (c :: acc) cs0 s rest h
              refine ⟨c :: x0, by simp [hx0], ?_⟩
              intro t fuel₂ hf
              obtain ⟨g, rfl⟩ : ∃ g, fuel₂ = g + 1 := ⟨fuel₂ - 1, by omega⟩
              simp only [List.cons_append, parseStringBody, if_neg hq,
                if_neg hb, if_neg hctl]
              exact rep0 t g (by simp at hf; omega)
    · intro acc cs s rest h
      cases cs with
      | nil => cases h
      | cons e cs1 =>
        simp only [parseEscape] at h
        split at h
        · rename_i d hse
          obtain ⟨x0, hx0, rep0⟩ := ihS (d :: acc) cs1 s rest h
          refine ⟨e :: x0, by simp [hx0], ?_⟩
          intro t fuel₂ hf
          obtain ⟨g, rfl⟩ : ∃ g, fuel₂ = g + 1 := ⟨fuel₂ - 1, by omega⟩
          simp only [List.cons_append, parseEscape, hse]
          exact rep0 t g (by simp at hf; omega)
        · rename_i hse
          by_cases hu : e = 'u'
          · rw [if_pos hu] at h
            obtain ⟨x0, hx0, rep0⟩ := ihU acc cs1 s rest h
            refine ⟨e :: x0, by simp [hx0], ?_⟩
            intro t fuel₂ hf
            obtain ⟨g, rfl⟩ : ∃ g, fuel₂ = g + 1 := ⟨fuel₂ - 1, by omega⟩
            simp only [List.cons_append, parseEscape, hse, if_pos hu]
            exact rep0 t g (by simp at hf; omega)
          · rw [if_neg hu] at h
            cases h
    · intro acc cs s rest h
      cases cs with
      | nil => cases h
      | cons a1 csa =>
      cases csa with
      | nil => cases h
      | cons a2 csb =>
      cases csb with
      | nil => cases h
      | cons a3 csc =>
      cases csc with
      | nil => cases h
      | cons a4 cs2 =>
      simp only [parseUnicodeEsc] at h
      split at h
      · cases h
      · rename_i nv hh
        split at h
        · rename_i hhi
          obtain ⟨x0, hx0, rep0⟩ := ihL acc nv cs2 s rest h
          refine ⟨a1 :: a2 :: a3 :: a4 :: x0, by simp [hx0], ?_⟩
          intro t fuel₂ hf
          obtain ⟨g, rfl⟩ : ∃ g, fuel₂ = g + 1 := ⟨fuel₂ - 1, by omega⟩
          simp only [List.cons_append, parseUnicodeEsc, hh]
          rw [if_pos hhi]
          exact rep0 t g (by simp at hf; omega)
        · rename_i hhi
          split at h
          · cases h
          · rename_i hlo
            obtain ⟨x0, hx0, rep0⟩ := ihS (Char.ofNat nv :: acc) cs2 s rest h
            refine ⟨a1 :: a2 :: a3 :: a4 :: x0, by simp [hx0], ?_⟩
            intro t fuel₂ hf
            obtain ⟨g, rfl⟩ : ∃ g, fuel₂ = g + 1 := ⟨fuel₂ - 1, by omega⟩
            simp only [List.cons_append, parseUnicodeEsc, hh]
            rw [if_neg hhi, if_neg hlo]
            exact rep0 t g (by simp at hf; omega)
    · intro acc n cs s rest h
      cases cs with
      | nil => cases h
      | cons b1 csa =>
      cases csa with
      | nil => cases h
      | cons b2 csb =>
      cases csb with
      | nil => cases h
      | cons b3 csc =>
      cases csc with
      | nil => cases h
      | cons b4 csd =>
      cases csd with
      | nil => cases h
      | cons b5 cse =>
      cases cse with
      | nil => cases h
      | cons b6 cs3 =>
      simp only [parseLowSurrogate] at h
      by_cases hb1 : b1 = '\\'
      · rw [if_pos hb1] at h
        by_cases hb2 : b2 = 'u'
        · rw [if_pos hb2] at h
          split at h
          · cases h
          · rename_i mv hh2
            split at h
            · rename_i hlo
              obtain ⟨x0, hx0, rep0⟩ :=
                ihS (Char.ofNat (0x10000 + (n - 0xD800) * 0x400 + (mv - 0xDC00)) :: acc)
                  cs3 s rest h
              refine ⟨b1 :: b2 :: b3 :: b4 :: b5 :: b6 :: x0, by simp [hx0], ?_⟩
              intro t fuel₂ hf
              obtain ⟨g, rfl⟩ : ∃ g, fuel₂ = g + 1 := ⟨fuel₂ - 1, by omega⟩
              simp only [List.cons_append, parseLowSurrogate, if_pos hb1,
                if_pos hb2, hh2]
              rw [if_pos hlo]
              exact rep0 t g (by simp at hf; omega)
            · cases h
        · rw [if_neg hb2] at h
          cases h
      · rw [if_neg hb1] at h
        cases h

/-- getLast? looks only at a nonempty right part. -/
theorem getLast?_append_right {α : Type} {l₁ l₂ : List α} (h : l₂ ≠ []) :
    (l₁ ++ l₂).getLast? = l₂.getLast? := by
  induction l₁ with
  | nil => rfl
  | cons a l ih =>
    rw [List.cons_append]
    obtain ⟨y, ys, hy⟩ : ∃ y ys, l ++ l₂ = y :: ys := by
      cases hl : l ++ l₂ with
      | nil => exact absurd (List.append_eq_nil.mp hl).2 h
      | cons y ys => exact ⟨y, ys, rfl⟩
    rw [hy, List.getLast?_cons_cons, ← hy, ih]

theorem ne_nil_of_getLast? {α : Type} {l : List α} {a : α}
    (h : l.getLast? = some a) : l ≠ [] := by
  intro he
  subst he
  cases h

/-- A non-continuing head keeps a continuation benign. -/
theorem headOkNum_cons {c : Char} (h : numCont c = false) (l : List Char) :
    headOkNum (c :: l) = true := by
  simp [headOkNum, h]

/-- Whitespace padding keeps a continuation benign. -/
theorem headOkNum_ws_append {w : List Char}
    (hall : ∀ c ∈ w, jsonWs c = true) {l : List Char}
    (hl : headOkNum l = true) : headOkNum (w ++ l) = true := by
  cases w with
  | nil => exact hl
  | cons hw w' =>
    exact headOkNum_cons (ws_not_numCont (jsonWs_rustWs (hall hw (by simp)))) _

/-- skipWs through padding up to a non-whitespace char. -/
theorem skipWs_ws_cons {w : List Char} (hall : ∀ c ∈ w, jsonWs c = true)
    {d : Char} (hd : jsonWs d = false) (l : List Char) :
    skipWs (w ++ d :: l) = d :: l := by
  rw [skipWs_all_append hall, skipWs_cons_neg hd]

/-- Consumed decomposition and suffix irrelevance for the value parser
trio: a successful parse consumed a nonempty prefix ending in a
non-whitespace char (a closing bracket for elements and members), and
replaying it on the consumed text plus any other suffix, with any fuel
above the consumed length, gives the same value. The continuation must
not be able to extend a number (headOkNum). -/
theorem parserSpecs : ∀ fuel : Nat,
    (∀ cs v rest, parseValue fuel cs = some (v, rest) →
      ∃ x, cs = x ++ rest ∧ x ≠ [] ∧ lastNonWs x ∧
        ∀ t fuel₂, headOkNum t = true → x.length < fuel₂ →
          parseValue fuel₂ (x ++ t) = some (v, t)) ∧
    (∀ cs vs rest, parseElems fuel cs = some (vs, rest) →
      ∃ x, cs = x ++ rest ∧ x.getLast? = some ']' ∧
        ∀ t fuel₂, x.length < fuel₂ →
          parseElems fuel₂ (x ++ t) = some (vs, t)) ∧
    (∀ cs ms rest, parseMembers fuel cs = some (ms, rest) →
      ∃ x, cs = x ++ rest ∧ x.getLast? = some rbrace ∧
        ∀ t fuel₂, x.length < fuel₂ →
          parseMembers fuel₂ (x ++ t) = some (ms, t)) := by
  intro fuel
  induction fuel with
  | zero =>
    refine ⟨?_, ?_, ?_⟩
    · intro cs v rest h; cases h
    · intro cs vs rest h; cases h
    · intro cs ms rest h; cases h
  | succ f ih =>
    obtain ⟨ihV, ihE, ihM⟩ := ih
    refine ⟨?_, ?_, ?_⟩
    · -- parseValue
      intro cs v rest h
      cases cs with
      | nil => cases h
      | cons c cs' =>
        simp only [parseValue] at h
        split at h
        · -- c = 'n'
          rename_i hn
          split at h
          · rename_i r hel
            injection h with h1
            injection h1 with hv hr
            refine ⟨['n', 'u', 'l', 'l'], ?_, by simp, ?_, ?_⟩
            · rw [hn, expectLit_decomp hel, hr]; simp
            · intro d hd
              injection hd with h2
              rw [← h2]; decide
            · intro t fuel₂ hok hlt
              obtain ⟨g, rfl⟩ : ∃ g, fuel₂ = g + 1 := ⟨fuel₂ - 1, by omega⟩
              have hes : expectLit ['u', 'l', 'l'] ('u' :: 'l' :: 'l' :: t) = some t :=
                expectLit_self ['u', 'l', 'l'] t
              simp only [List.cons_append, List.nil_append, parseValue,
                if_pos (show ('n' = 'n') from rfl), hes, ite_true, ← hv]
          · cases h
        · rename_i hn
          split at h
          · -- c = 't'
            rename_i htt
            split at h
            · rename_i r hel
              injection h with h1
              injection h1 with hv hr
              refine ⟨['t', 'r', 'u', 'e'], ?_, by simp, ?_, ?_⟩
              · rw [htt, expectLit_decomp hel, hr]; simp
              · intro d hd
                injection hd with h2
                rw [← h2]; decide
              · intro t fuel₂ hok hlt
                obtain ⟨g, rfl⟩ : ∃ g, fuel₂ = g + 1 := ⟨fuel₂ - 1, by omega⟩
                have hes : expectLit ['r', 'u', 'e'] ('r' :: 'u' :: 'e' :: t) = some t :=
                  expectLit_self ['r', 'u', 'e'] t
                simp only [List.cons_append, List.nil_append, parseValue,
                  if_neg (show ¬('t' = 'n') by decide),
                  if_pos (show ('t' = 't') from rfl), hes, ite_true, ← hv]
            · cases h
          · rename_i htt
            split at h
            · -- c = 'f'
              rename_i hff
              split at h
              · rename_i r hel
                injection h with h1
                injection h1 with hv hr
                refine ⟨['f', 'a', 'l', 's', 'e'], ?_, by simp, ?_, ?_⟩
                · rw [hff, expectLit_decomp hel, hr]; simp
                · intro d hd
                  injection hd with h2
                  rw [← h2]; decide
                · intro t fuel₂ hok hlt
                  obtain ⟨g, rfl⟩ : ∃ g, fuel₂ = g + 1 := ⟨fuel₂ - 1, by omega⟩
                  have hes : expectLit ['a', 'l', 's', 'e'] ('a' :: 'l' :: 's' :: 'e' :: t) = some t :=
                    expectLit_self ['a', 'l', 's', 'e'] t
                  simp only [List.cons_append, List.nil_append, parseValue,
                    if_neg (show ¬('f' = 'n') by decide),
                    if_neg (show ¬('f' = 't') by decide),
                    if_pos (show ('f' = 'f') from rfl), hes, ite_true, ← hv]
              · cases h
            · rename_i hff
              split at h
              · -- c = '"'
                rename_i hq
                split at h
                · rename_i s r hps
                  injection h with h1
                  injection h1 with hv hr
                  obtain ⟨xs, hxs, reps⟩ := (parseStringFamily_spec f).1 [] cs' s r hps
                  refine ⟨'"' :: (xs ++ ['"']), ?_, by simp, ?_, ?_⟩
                  · rw [hq, hxs, hr]; simp
                  · intro d hd
                    rw [show ('"' :: (xs ++ ['"']) : List Char) = ('"' :: xs) ++ ['"'] by simp] at hd
                    rw [List.getLast?_concat] at hd
                    injection hd with h2
                    rw [← h2]; decide
                  · intro t fuel₂ hok hlt
                    obtain ⟨g, rfl⟩ : ∃ g, fuel₂ = g + 1 := ⟨fuel₂ - 1, by omega⟩
                    have hlen : xs.length < g := by simp at hlt; omega
                    have hreps : parseStringBody g [] (xs ++ '"' :: t) = some (s, t) :=
                      reps t g hlen
                    simp only [List.cons_append, List.append_assoc, List.nil_append,
                      parseValue,
                      if_neg (show ¬('"' = 'n') by decide),
                      if_neg (show ¬('"' = 't') by decide),
                      if_neg (show ¬('"' = 'f') by decide),
                      if_pos (show ('"' = '"') from rfl), hreps, ite_true, ← hv]
                · cases h
              · rename_i hq
                split at h
                · -- c = '['
                  rename_i hbr
                  split at h
                  · rename_i d r hsw
                    split at h
                    · -- d = ']'
                      rename_i hd
                      injection h with h1
                      injection h1 with hv hr
                      obtain ⟨w, hw, hwall⟩ := skipWs_decomp cs'
                      rw [hsw] at hw
                      refine ⟨'[' :: (w ++ [']']), ?_, by simp, ?_, ?_⟩
                      · rw [hbr, hw, hd, hr]; simp
                      · intro d2 hd2
                        rw [show ('[' :: (w ++ [']']) : List Char) = ('[' :: w) ++ [']'] by simp] at hd2
                        rw [List.getLast?_concat] at hd2
                        injection hd2 with h2
                        rw [← h2]; decide
                      · intro t fuel₂ hok hlt
                        obtain ⟨g, rfl⟩ : ∃ g, fuel₂ = g + 1 := ⟨fuel₂ - 1, by omega⟩
                        have hsw2 : skipWs (w ++ ']' :: t) = ']' :: t :=
                          skipWs_ws_cons hwall (by decide) t
                        simp only [List.cons_append, List.append_assoc, List.nil_append,
                          parseValue,
                          if_neg (show ¬('[' = 'n') by decide),
                          if_neg (show ¬('[' = 't') by decide),
                          if_neg (show ¬('[' = 'f') by decide),
                          if_neg (show ¬('[' = '"') by decide),
                          if_pos (show ('[' = '[') from rfl), hsw2,
                          if_pos (show (']' = ']') from rfl), ite_true, ← hv]
                    · -- elements
                      rename_i hd
                      split at h
                      · rename_i vs r2 hpe
                        injection h with h1
                        injection h1 with hv hr
                        obtain ⟨w, hw, hwall⟩ := skipWs_decomp cs'
                        rw [hsw] at hw
                        obtain ⟨xe, hxe, hle, repe⟩ := ihE (d :: r) vs r2 hpe
                        have hxene : xe ≠ [] := ne_nil_of_getLast? hle
                        obtain ⟨d1, xe', hd1⟩ : ∃ a b, xe = a :: b := by
                          cases xe with
                          | nil => exact absurd rfl hxene
                          | cons a b => exact ⟨a, b, rfl⟩
                        subst hd1
                        rw [List.cons_append] at hxe
                        have hdd : d1 = d := (List.cons.injEq .. |>.mp hxe.symm).1
                        subst hdd
                        have hrr : r = xe' ++ r2 := (List.cons.injEq .. |>.mp hxe).2
                        have hdws : jsonWs d1 = false := skipWs_head hsw
                        refine ⟨'[' :: (w ++ (d1 :: xe')), ?_, by simp, ?_, ?_⟩
                        · rw [hbr, hw, hrr, hr]; simp
                        · intro d2 hd2
                          rw [show ('[' :: (w ++ (d1 :: xe')) : List Char)
                              = ('[' :: w) ++ (d1 :: xe') by simp] at hd2
                          rw [getLast?_append_right (by simp)] at hd2
                          rw [hle] at hd2
                          injection hd2 with h2
                          rw [← h2]; decide
                        · intro t fuel₂ hok hlt
                          obtain ⟨g, rfl⟩ : ∃ g, fuel₂ = g + 1 := ⟨fuel₂ - 1, by omega⟩
                          have hlene : (d1 :: xe').length < g := by
                            simp at hlt ⊢; omega
                          have hrepe : parseElems g (d1 :: (xe' ++ t)) = some (vs, t) := by
                            have hx := repe t g hlene
                            rwa [List.cons_append] at hx
                          have hsw2 : skipWs (w ++ d1 :: (xe' ++ t)) = d1 :: (xe' ++ t) :=
                            skipWs_ws_cons hwall hdws _
                          simp only [List.cons_append, List.append_assoc,
                            parseValue,
                            if_neg (show ¬('[' = 'n') by decide),
                            if_neg (show ¬('[' = 't') by decide),
                            if_neg (show ¬('[' = 'f') by decide),
                            if_neg (show ¬('[' = '"') by decide),
                            if_pos (show ('[' = '[') from rfl), hsw2,
                            if_neg hd, hrepe, ite_true, ← hv]
                      · cases h
                  · cases h
                · rename_i hbr
                  split at h
                  · -- c = lbrace
                    rename_i hbc
                    split at h
                    · rename_i d r hsw
                      split at h
                      · -- d = rbrace
                        rename_i hd
                        injection h with h1
                        injection h1 with hv hr
                        obtain ⟨w, hw, hwall⟩ := skipWs_decomp cs'
                        rw [hsw] at hw
                        refine ⟨lbrace :: (w ++ [rbrace]), ?_, by simp, ?_, ?_⟩
                        · rw [hbc, hw, hd, hr]; simp
                        · intro d2 hd2
                          rw [show (lbrace :: (w ++ [rbrace]) : List Char)
                              = (lbrace :: w) ++ [rbrace] by simp] at hd2
                          rw [List.getLast?_concat] at hd2
                          injection hd2 with h2
                          rw [← h2]; decide
                        · intro t fuel₂ hok hlt
                          obtain ⟨g, rfl⟩ : ∃ g, fuel₂ = g + 1 := ⟨fuel₂ - 1, by omega⟩
                          have hsw2 : skipWs (w ++ rbrace :: t) = rbrace :: t :=
                            skipWs_ws_cons hwall (by decide) t
                          simp only [List.cons_append, List.append_assoc, List.nil_append,
                            parseValue,
                            if_neg (show ¬(lbrace = 'n') by decide),
                            if_neg (show ¬(lbrace = 't') by decide),
                            if_neg (show ¬(lbrace = 'f') by decide),
                            if_neg (show ¬(lbrace = '"') by decide),
                            if_neg (show ¬(lbrace = '[') by decide),
                            if_pos (show (lbrace = lbrace) from rfl), hsw2,
                            if_pos (show (rbrace = rbrace) from rfl), ite_true, ← hv]
                      · -- members
                        rename_i hd
                        split at h
                        · rename_i ms r2 hpm
                          injection h with h1
                          injection h1 with hv hr
                          obtain ⟨w, hw, hwall⟩ := skipWs_decomp cs'
                          rw [hsw] at hw
                          obtain ⟨xm, hxm, hlm, repm⟩ := ihM (d :: r) ms r2 hpm
                          have hxmne : xm ≠ [] := ne_nil_of_getLast? hlm
                          obtain ⟨d1, xm', hd1⟩ : ∃ a b, xm = a :: b := by
                            cases xm with
                            | nil => exact absurd rfl hxmne
                            | cons a b => exact ⟨a, b, rfl⟩
                          subst hd1
                          rw [List.cons_append] at hxm
                          have hdd : d1 = d := (List.cons.injEq .. |>.mp hxm.symm).1
                          subst hdd
                          have hrr : r = xm' ++ r2 := (List.cons.injEq .. |>.mp hxm).2
                          have hdws : jsonWs d1 = false := skipWs_head hsw
                          refine ⟨lbrace :: (w ++ (d1 :: xm')), ?_, by simp, ?_, ?_⟩
                          · rw [hbc, hw, hrr, hr]; simp
                          · intro d2 hd2
                            rw [show (lbrace :: (w ++ (d1 :: xm')) : List Char)
                                = (lbrace :: w) ++ (d1 :: xm') by simp] at hd2
                            rw [getLast?_append_right (by simp)] at hd2
                            rw [hlm] at hd2
                            injection hd2 with h2
                            rw [← h2]; decide
                          · intro t fuel₂ hok hlt
                            obtain ⟨g, rfl⟩ : ∃ g, fuel₂ = g + 1 := ⟨fuel₂ - 1, by omega⟩
                            have hlenm : (d1 :: xm').length < g := by
                              simp at hlt ⊢; omega
                            have hrepm : parseMembers g (d1 :: (xm' ++ t)) = some (ms, t) := by
                              have hx := repm t g hlenm
                              rwa [List.cons_append] at hx
                            have hsw2 : skipWs (w ++ d1 :: (xm' ++ t)) = d1 :: (xm' ++ t) :=
                              skipWs_ws_cons hwall hdws _
                            simp only [List.cons_append, List.append_assoc,
                              parseValue,
                              if_neg (show ¬(lbrace = 'n') by decide),
                              if_neg (show ¬(lbrace = 't') by decide),
                              if_neg (show ¬(lbrace = 'f') by decide),
                              if_neg (show ¬(lbrace = '"') by decide),
                              if_neg (show ¬(lbrace = '[') by decide),
                              if_pos (show (lbrace = lbrace) from rfl), hsw2,
                              if_neg hd, hrepm, ite_true, ← hv]
                        · cases h
                    · cases h
                  · rename_i hbc
                    split at h
                    · -- number
                      rename_i hnum
                      obtain ⟨xn, hxn, hnn, hln, repn⟩ := parseNumber_spec h
                      refine ⟨xn, hxn, hnn, hln, ?_⟩
                      intro t fuel₂ hok hlt
                      obtain ⟨g, rfl⟩ : ∃ g, fuel₂ = g + 1 := ⟨fuel₂ - 1, by omega⟩
                      obtain ⟨c1, x1, hc1⟩ : ∃ a b, xn = a :: b := by
                        cases xn with
                        | nil => exact absurd rfl hnn
                        | cons a b => exact ⟨a, b, rfl⟩
                      subst hc1
                      rw [List.cons_append] at hxn
                      have hcc : c = c1 := (List.cons.injEq .. |>.mp hxn).1
                      subst hcc
                      have hrepn : parseNumber (c :: (x1 ++ t)) = some (v, t) := by
                        have hx := repn t hok
                        rwa [List.cons_append] at hx
                      simp only [List.cons_append, parseValue, if_neg hn,
                        if_neg htt, if_neg hff, if_neg hq, if_neg hbr,
                        if_neg hbc, if_pos hnum, hrepn]
                    · cases h
    · -- parseElems
      intro cs vs rest h
      simp only [parseElems] at h
      split at h
      · rename_i v r1 hpv
        split at h
        · rename_i d r2 hsw
          split at h
          · -- d = ','
            rename_i hd
            split at h
            · rename_i vs' r3 hpe
              injection h with h1
              injection h1 with hvs hr
              obtain ⟨xv, hxv, hnev, hlv, repv⟩ := ihV cs v r1 hpv
              obtain ⟨w1, hw1, hw1all⟩ := skipWs_decomp r1
              rw [hsw] at hw1
              obtain ⟨w2, hw2, hw2all⟩ := skipWs_decomp r2
              obtain ⟨xe, hxe, hle, repe⟩ := ihE (skipWs r2) vs' r3 hpe
              have hxene : xe ≠ [] := ne_nil_of_getLast? hle
              obtain ⟨e1, xe', he1⟩ : ∃ a b, xe = a :: b := by
                cases xe with
                | nil => exact absurd rfl hxene
                | cons a b => exact ⟨a, b, rfl⟩
              subst he1
              rw [List.cons_append] at hxe
              have he1ws : jsonWs e1 = false := skipWs_head hxe
              refine ⟨xv ++ (w1 ++ (',' :: (w2 ++ (e1 :: xe')))), ?_, ?_, ?_⟩
              · rw [hxv, hw1, hd, hw2, hxe, hr]; simp
              · rw [show (xv ++ (w1 ++ (',' :: (w2 ++ (e1 :: xe')))) : List Char)
                    = (xv ++ w1 ++ ',' :: w2) ++ (e1 :: xe') by simp]
                rw [getLast?_append_right (by simp)]
                exact hle
              · intro t fuel₂ hlt
                obtain ⟨g, rfl⟩ : ∃ g, fuel₂ = g + 1 := ⟨fuel₂ - 1, by omega⟩
                have hokv : headOkNum (w1 ++ (',' :: (w2 ++ (e1 :: (xe' ++ t))))) = true :=
                  headOkNum_ws_append hw1all (headOkNum_cons (by decide) _)
                have hlenv : xv.length < g := by simp at hlt; omega
                have hrepv := repv (w1 ++ (',' :: (w2 ++ (e1 :: (xe' ++ t))))) g hokv hlenv
                have hsw2 : skipWs (w1 ++ (',' :: (w2 ++ (e1 :: (xe' ++ t)))))
                    = ',' :: (w2 ++ (e1 :: (xe' ++ t))) :=
                  skipWs_ws_cons hw1all (by decide) _
                have hsw3 : skipWs (w2 ++ (e1 :: (xe' ++ t))) = e1 :: (xe' ++ t) :=
                  skipWs_ws_cons hw2all he1ws _
                have hlene : (e1 :: xe').length < g := by simp at hlt ⊢; omega
                have hrepe : parseElems g (e1 :: (xe' ++ t)) = some (vs', t) := by
                  have hx := repe t g hlene
                  rwa [List.cons_append] at hx
                simp only [List.append_assoc, List.cons_append, parseElems,
                  hrepv, hsw2, if_pos (show (',' = ',') from rfl), hsw3,
                  hrepe, ite_true, ← hvs]
            · cases h
          · rename_i hd
            split at h
            · -- d = ']'
              rename_i hd2
              injection h with h1
              injection h1 with hvs hr
              obtain ⟨xv, hxv, hnev, hlv, repv⟩ := ihV cs v r1 hpv
              obtain ⟨w1, hw1, hw1all⟩ := skipWs_decomp r1
              rw [hsw] at hw1
              refine ⟨(xv ++ w1) ++ [']'], ?_, ?_, ?_⟩
              · rw [hxv, hw1, hd2, hr]; simp
              · rw [List.getLast?_concat]
              · intro t fuel₂ hlt
                obtain ⟨g, rfl⟩ : ∃ g, fuel₂ = g + 1 := ⟨fuel₂ - 1, by omega⟩
                have hokv : headOkNum (w1 ++ (']' :: t)) = true :=
                  headOkNum_ws_append hw1all (headOkNum_cons (by decide) _)
                have hlenv : xv.length < g := by simp at hlt; omega
                have hrepv := repv (w1 ++ (']' :: t)) g hokv hlenv
                have hsw2 : skipWs (w1 ++ (']' :: t)) = ']' :: t :=
                  skipWs_ws_cons hw1all (by decide) t
                simp only [List.append_assoc, List.cons_append, List.nil_append,
                  parseElems, hrepv, hsw2,
                  if_neg (show ¬(']' = ',') by decide),
                  if_pos (show (']' = ']') from rfl), ite_true, ← hvs]
            · cases h
        · cases h
      · cases h
    · -- parseMembers
      intro cs ms rest h
      cases cs with
      | nil => cases h
      | cons c cs1 =>
        simp only [parseMembers] at h
        split at h
        · rename_i hq
          split at h
          · rename_i k r1 hps
            split at h
            · rename_i d r2 hsw
              split at h
              · -- d = ':'
                rename_i hd
                split at h
                · rename_i v r3 hpv
                  split at h
                  · rename_i d2 r4 hsw3
                    split at h
                    · -- d2 = ','
                      rename_i hd2
                      split at h
                      · rename_i ms' r5 hpm
                        injection h with h1
                        injection h1 with hms hr
                        obtain ⟨xs, hxs, reps⟩ := (parseStringFamily_spec f).1 [] cs1 k r1 hps
                        obtain ⟨w1, hw1, hw1all⟩ := skipWs_decomp r1
                        rw [hsw] at hw1
                        obtain ⟨w2, hw2, hw2all⟩ := skipWs_decomp r2
                        obtain ⟨xv, hxv, hnev, hlv, repv⟩ := ihV (skipWs r2) v r3 hpv
                        obtain ⟨v1, xv', hv1⟩ : ∃ a b, xv = a :: b := by
                          cases xv with
                          | nil => exact absurd rfl hnev
                          | cons a b => exact ⟨a, b, rfl⟩
                        subst hv1
                        rw [List.cons_append] at hxv
                        have hv1ws : jsonWs v1 = false := skipWs_head hxv
                        obtain ⟨w3, hw3, hw3all⟩ := skipWs_decomp r3
                        rw [hsw3] at hw3
                        obtain ⟨w4, hw4, hw4all⟩ := skipWs_decomp r4
                        obtain ⟨xm, hxm, hlm, repm⟩ := ihM (skipWs r4) ms' r5 hpm
                        have hxmne : xm ≠ [] := ne_nil_of_getLast? hlm
                        obtain ⟨m1, xm', hm1⟩ : ∃ a b, xm = a :: b := by
                          cases xm with
                          | nil => exact absurd rfl hxmne
                          | cons a b => exact ⟨a, b, rfl⟩
                        subst hm1
                        rw [List.cons_append] at hxm
                        have hm1ws : jsonWs m1 = false := skipWs_head hxm
                        refine ⟨('"' :: (xs ++ ['"'])) ++ (w1 ++ (':' ::
                          (w2 ++ ((v1 :: xv') ++ (w3 ++ (',' :: (w4 ++ (m1 :: xm')))))))),
                          ?_, ?_, ?_⟩
                        · rw [hq, hxs, hw1, hd, hw2, hxv, hw3, hd2, hw4, hxm, hr]
                          simp
                        · rw [show (('"' :: (xs ++ ['"'])) ++ (w1 ++ (':' ::
                              (w2 ++ ((v1 :: xv') ++ (w3 ++ (',' :: (w4 ++ (m1 :: xm')))))))) : List Char)
                              = (('"' :: (xs ++ ['"'])) ++ w1 ++ ':' :: w2 ++ (v1 :: xv')
                                  ++ w3 ++ ',' :: w4) ++ (m1 :: xm') by simp]
                          rw [getLast?_append_right (by simp)]
                          exact hlm
                        · intro t fuel₂ hlt
                          obtain ⟨g, rfl⟩ : ∃ g, fuel₂ = g + 1 := ⟨fuel₂ - 1, by omega⟩
                          have hlens : xs.length < g := by simp at hlt; omega
                          have hreps : parseStringBody g []
                              (xs ++ '"' :: (w1 ++ ':' :: (w2 ++ v1 :: (xv' ++
                                (w3 ++ ',' :: (w4 ++ m1 :: (xm' ++ t)))))))
                              = some (k, w1 ++ ':' :: (w2 ++ v1 :: (xv' ++
                                (w3 ++ ',' :: (w4 ++ m1 :: (xm' ++ t)))))) :=
                            reps _ g hlens
                          have hsw2 : skipWs (w1 ++ ':' :: (w2 ++ v1 :: (xv' ++
                              (w3 ++ ',' :: (w4 ++ m1 :: (xm' ++ t))))))
                              = ':' :: (w2 ++ v1 :: (xv' ++
                                (w3 ++ ',' :: (w4 ++ m1 :: (xm' ++ t))))) :=
                            skipWs_ws_cons hw1all (by decide) _
                          have hokv : headOkNum (w3 ++ ',' :: (w4 ++ m1 :: (xm' ++ t)))
                              = true :=
                            headOkNum_ws_append hw3all (headOkNum_cons (by decide) _)
                          have hlenv : (v1 :: xv').length < g := by simp at hlt ⊢; omega
                          have hrepv : parseValue g (v1 :: (xv' ++
                              (w3 ++ ',' :: (w4 ++ m1 :: (xm' ++ t)))))
                              = some (v, w3 ++ ',' :: (w4 ++ m1 :: (xm' ++ t))) := by
                            have hx := repv (w3 ++ ',' :: (w4 ++ m1 :: (xm' ++ t))) g hokv hlenv
                            rwa [List.cons_append] at hx
                          have hsw4 : skipWs (w2 ++ v1 :: (xv' ++
                              (w3 ++ ',' :: (w4 ++ m1 :: (xm' ++ t)))))
                              = v1 :: (xv' ++ (w3 ++ ',' :: (w4 ++ m1 :: (xm' ++ t)))) :=
                            skipWs_ws_cons hw2all hv1ws _
                          have hsw5 : skipWs (w3 ++ ',' :: (w4 ++ m1 :: (xm' ++ t)))
                              = ',' :: (w4 ++ m1 :: (xm' ++ t)) :=
                            skipWs_ws_cons hw3all (by decide) _
                          have hsw6 : skipWs (w4 ++ m1 :: (xm' ++ t)) = m1 :: (xm' ++ t) :=
                            skipWs_ws_cons hw4all hm1ws _
                          have hlenm : (m1 :: xm').length < g := by simp at hlt ⊢; omega
                          have hrepm : parseMembers g (m1 :: (xm' ++ t)) = some (ms', t) := by
                            have hx := repm t g hlenm
                            rwa [List.cons_append] at hx
                          simp only [List.append_assoc, List.cons_append, List.nil_append,
                            parseMembers, hreps, hsw2, hsw4, hrepv, hsw5,
                            hsw6, hrepm, ite_true, ← hms]
                      · cases h
                    · rename_i hd2
                      split at h
                      · -- d2 = rbrace
                        rename_i hd2b
                        injection h with h1
                        injection h1 with hms hr
                        obtain ⟨xs, hxs, reps⟩ := (parseStringFamily_spec f).1 [] cs1 k r1 hps
                        obtain ⟨w1, hw1, hw1all⟩ := skipWs_decomp r1
                        rw [hsw] at hw1
                        obtain ⟨w2, hw2, hw2all⟩ := skipWs_decomp r2
                        obtain ⟨xv, hxv, hnev, hlv, repv⟩ := ihV (skipWs r2) v r3 hpv
                        obtain ⟨v1, xv', hv1⟩ : ∃ a b, xv = a :: b := by
                          cases xv with
                          | nil => exact absurd rfl hnev
                          | cons a b => exact ⟨a, b, rfl⟩
                        subst hv1
                        rw [List.cons_append] at hxv
                        have hv1ws : jsonWs v1 = false := skipWs_head hxv
                        obtain ⟨w3, hw3, hw3all⟩ := skipWs_decomp r3
                        rw [hsw3] at hw3
                        refine ⟨(('"' :: (xs ++ ['"'])) ++ (w1 ++ (':' ::
                          (w2 ++ ((v1 :: xv') ++ w3))))) ++ [rbrace], ?_, ?_, ?_⟩
                        · rw [hq, hxs, hw1, hd, hw2, hxv, hw3, hd2b, hr]
                          simp
                        · rw [List.getLast?_concat]
                        · intro t fuel₂ hlt
                          obtain ⟨g, rfl⟩ : ∃ g, fuel₂ = g + 1 := ⟨fuel₂ - 1, by omega⟩
                          have hlens : xs.length < g := by simp at hlt; omega
                          have hreps : parseStringBody g []
                              (xs ++ '"' :: (w1 ++ ':' :: (w2 ++ v1 :: (xv' ++
                                (w3 ++ rbrace :: t)))))
                              = some (k, w1 ++ ':' :: (w2 ++ v1 :: (xv' ++
                                (w3 ++ rbrace :: t)))) :=
                            reps _ g hlens
                          have hsw2 : skipWs (w1 ++ ':' :: (w2 ++ v1 :: (xv' ++
                              (w3 ++ rbrace :: t))))
                              = ':' :: (w2 ++ v1 :: (xv' ++ (w3 ++ rbrace :: t))) :=
                            skipWs_ws_cons hw1all (by decide) _
                          have hokv : headOkNum (w3 ++ rbrace :: t) = true :=
                            headOkNum_ws_append hw3all (headOkNum_cons (by decide) _)
                          have hlenv : (v1 :: xv').length < g := by simp at hlt ⊢; omega
                          have hrepv : parseValue g (v1 :: (xv' ++ (w3 ++ rbrace :: t)))
                              = some (v, w3 ++ rbrace :: t) := by
                            have hx := repv (w3 ++ rbrace :: t) g hokv hlenv
                            rwa [List.cons_append] at hx
                          have hsw4 : skipWs (w2 ++ v1 :: (xv' ++ (w3 ++ rbrace :: t)))
                              = v1 :: (xv' ++ (w3 ++ rbrace :: t)) :=
                            skipWs_ws_cons hw2all hv1ws _
                          have hsw5 : skipWs (w3 ++ rbrace :: t) = rbrace :: t :=
                            skipWs_ws_cons hw3all (by decide) _
                          simp only [List.append_assoc, List.cons_append, List.nil_append,
                            parseMembers, hreps, hsw2, hsw4, hrepv, hsw5,
                            if_neg (show ¬(rbrace = ',') by decide), ite_true, ← hms]
                      · cases h
                  · cases h
                · cases h
              · cases h
            · cases h
          · cases h
        · cases h

/-- A JSON value never starts with whitespace: parseValue fails on a
whitespace head. -/
theorem parseValue_ws_head {c : Char} (hws : rustWs c = true) :
    ∀ fuel rest, parseValue fuel (c :: rest) = none := by
  intro fuel rest
  cases fuel with
  | zero => rfl
  | succ f =>
    have h1 : ¬ c = 'n' := ne_char_of_ws hws 'n' (by decide)
    have h2 : ¬ c = 't' := ne_char_of_ws hws 't' (by decide)
    have h3 : ¬ c = 'f' := ne_char_of_ws hws 'f' (by decide)
    have h4 : ¬ c = '"' := ne_char_of_ws hws '"' (by decide)
    have h5 : ¬ c = '[' := ne_char_of_ws hws '[' (by decide)
    have h6 : ¬ c = lbrace := ne_char_of_ws hws lbrace (by decide)
    have h7 : (c = '-' || isAsciiDigit c) = false := by
      simp [ws_not_digit hws]
      exact ne_char_of_ws hws '-' (by decide)
    simp only [parseValue, if_neg h1, if_neg h2, if_neg h3, if_neg h4,
      if_neg h5, if_neg h6, h7]
    rw [if_neg Bool.false_ne_true]

/-- serde_json's whitespace tolerance subsumes Rust trim: a string that
from_str accepts still parses, to the same value, after trimming. -/
theorem jsonFromChars_trim {cs : List Char} {v : Json}
    (h : jsonFromChars cs = some v) :
    jsonFromChars (trimChars cs) = some v := by
  unfold jsonFromChars at h
  split at h
  · rename_i v0 rest hpv
    split at h
    · rename_i hemp
      injection h with hv
      obtain ⟨x, hx, hne, hlast, rep⟩ :=
        (parserSpecs ((skipWs cs).length + 1)).1 (skipWs cs) v0 rest hpv
      obtain ⟨w, hw, hwall⟩ := skipWs_decomp cs
      have hrestnil : skipWs rest = [] := List.isEmpty_iff.mp hemp
      have hrestws : ∀ c ∈ rest, jsonWs c = true := skipWs_nil_mem hrestnil
      obtain ⟨x1, x', hx1⟩ : ∃ a b, x = a :: b := by
        cases x with
        | nil => exact absurd rfl hne
        | cons a b => exact ⟨a, b, rfl⟩
      have hx1ws : rustWs x1 = false := by
        cases hb : rustWs x1
        · rfl
        · exfalso
          rw [hx1, List.cons_append] at hx
          rw [hx, parseValue_ws_head hb _ _] at hpv
          cases hpv
      have htrim : trimChars cs = x := by
        rw [hw, hx, ← List.append_assoc]
        rw [trimChars_wrap (fun c hc => jsonWs_rustWs (hwall c hc))
          (fun c hc => jsonWs_rustWs (hrestws c hc))]
        refine trimChars_eq_self ?_ hlast
        intro c hc
        rw [hx1] at hc
        injection hc with hc1
        rw [← hc1]
        exact hx1ws
      rw [htrim]
      unfold jsonFromChars
      have hjx1 : jsonWs x1 = false := by
        cases hjb : jsonWs x1
        · rfl
        · exact absurd (jsonWs_rustWs hjb) (by rw [hx1ws]; simp)
      have hskipx : skipWs x = x := by
        rw [hx1]
        exact skipWs_cons_neg hjx1 _
      rw [hskipx]
      have hrep := rep [] (x.length + 1) rfl (by omega)
      rw [List.append_nil] at hrep
      rw [hrep]
      simp [hv, skipWs]
    · cases h
  · cases h

/-- The fence pattern chars. -/
def btL : List Char := ['`', '`', '`']

/-- The json-tagged fence pattern chars. -/
def bjL : List Char := ['`', '`', '`', 'j', 's', 'o', 'n']

/-- A list is a prefix of itself plus anything. -/
theorem isPrefixOf_append_self : ∀ (pat l : List Char),
    pat.isPrefixOf (pat ++ l) = true := by
  intro pat l
  induction pat with
  | nil => cases l <;> rfl
  | cons c cs ih => simp [List.isPrefixOf, ih]

/-- find returns 0 on a prefix. -/
theorem findSub_of_prefix {l pat : List Char} (h : pat.isPrefixOf l = true) :
    findSub l pat = some 0 := by
  cases l with
  | nil =>
    cases pat with
    | nil => rfl
    | cons c cp => simp [List.isPrefixOf] at h
  | cons c r => simp [findSub, h]

/-- find fails only if no position works. -/
theorem findSub_none_mem : ∀ {l pat : List Char}, findSub l pat = none →
    ∀ j, pat.isPrefixOf (l.drop j) = false := by
  intro l
  induction l with
  | nil =>
    intro pat h j
    cases pat with
    | nil => cases h
    | cons c cp => simp [List.isPrefixOf]
  | cons c r ih =>
    intro pat h j
    by_cases hp : pat.isPrefixOf (c :: r) = true
    · rw [findSub, if_pos hp] at h
      cases h
    · have hb : pat.isPrefixOf (c :: r) = false := by
        cases hx : pat.isPrefixOf (c :: r)
        · rfl
        · exact absurd hx hp
      rw [findSub, if_neg hp] at h
      have h2 : findSub r pat = none := by
        cases hx : findSub r pat
        · rfl
        · rw [hx] at h
          cases h
      cases j with
      | zero => rw [List.drop_zero]; exact hb
      | succ j' =>
        rw [List.drop_succ_cons]
        exact ih h2 j'

/-- No position works: find fails. -/
theorem findSub_eq_none : ∀ {l pat : List Char},
    (∀ j, pat.isPrefixOf (l.drop j) = false) → findSub l pat = none := by
  intro l
  induction l with
  | nil =>
    intro pat h
    cases pat with
    | nil =>
      have h0 := h 0
      rw [List.drop_nil] at h0
      cases h0
    | cons c cp => rfl
  | cons c r ih =>
    intro pat h
    have h0 : ¬ pat.isPrefixOf (c :: r) = true := by
      have h00 := h 0
      rw [List.drop_zero] at h00
      intro hcon
      rw [hcon] at h00
      cases h00
    rw [findSub, if_neg h0]
    rw [ih (fun j => by have hx := h (j + 1); rwa [List.drop_succ_cons] at hx)]
    rfl

/-- find returns the first position that works. -/
theorem findSub_eq_some {l pat : List Char} {i : Nat}
    (h1 : pat.isPrefixOf (l.drop i) = true)
    (h2 : ∀ j, j < i → pat.isPrefixOf (l.drop j) = false) :
    findSub l pat = some i := by
  induction l generalizing i with
  | nil =>
    cases pat with
    | cons c cp => rw [List.drop_nil] at h1; simp [List.isPrefixOf] at h1
    | nil =>
      cases i with
      | zero => rfl
      | succ i' =>
        have h0 := h2 0 (Nat.succ_pos _)
        rw [List.drop_nil] at h0
        cases h0
  | cons c r ih =>
    cases i with
    | zero =>
      rw [List.drop_zero] at h1
      simp only [findSub]
      rw [if_pos h1]
    | succ i' =>
      have h0 : ¬ pat.isPrefixOf (c :: r) = true := by
        have h00 := h2 0 (Nat.succ_pos _)
        rw [List.drop_zero] at h00
        intro hcon
        rw [hcon] at h00
        cases h00
      simp only [findSub]
      rw [if_neg h0]
      have hr := ih (by rwa [List.drop_succ_cons] at h1) (fun j hj => by
        have hx := h2 (j + 1) (Nat.succ_lt_succ hj)
        rwa [List.drop_succ_cons] at hx)
      rw [hr]
      rfl

/-- getLast? is stable under dropping fewer than all elements. -/
theorem getLast?_drop_own {α : Type} : ∀ {l : List α} {n : Nat}, n < l.length →
    (l.drop n).getLast? = l.getLast? := by
  intro l
  induction l with
  | nil => intro n h; simp at h
  | cons c r ih =>
    intro n h
    cases n with
    | zero => rfl
    | succ m =>
      rw [List.drop_succ_cons]
      have hm : m < r.length := by simp at h; omega
      rw [ih hm]
      obtain ⟨y, ys, hy⟩ : ∃ y ys, r = y :: ys := by
        cases r with
        | nil => simp at hm
        | cons y ys => exact ⟨y, ys, rfl⟩
      rw [hy, List.getLast?_cons_cons]

/-- No fence occurs inside the newline-wrapped middle when none occurs
in the payload. -/
theorem bt_not_in_wrap {p : List Char}
    (hp : ∀ j, btL.isPrefixOf (p.drop j) = false) :
    ∀ j, btL.isPrefixOf (('\n' :: (p ++ ['\n'])).drop j) = false := by
  intro j
  cases j with
  | zero =>
    rw [List.drop_zero]
    have hne : (('`' : Char) == '\n') = false := by decide
    simp [btL, List.isPrefixOf, hne]
  | succ j' =>
    rw [List.drop_succ_cons]
    cases hx : btL.isPrefixOf ((p ++ ['\n']).drop j')
    · rfl
    · exfalso
      have hpre : btL <+: ((p ++ ['\n']).drop j') := List.isPrefixOf_iff_prefix.mp hx
      have hlen3 : 3 ≤ p.length + 1 - j' := by
        have hl := hpre.length_le
        simp [btL, List.length_drop] at hl
        omega
      by_cases hfit : j' + 3 ≤ p.length
      · rw [List.drop_append_of_le_length (by omega)] at hpre
        have hpre2 : btL <+: p.drop j' := by
          rw [List.prefix_iff_eq_take] at hpre ⊢
          rwa [List.take_append_of_le_length (by simp [btL, List.length_drop]; omega)] at hpre
        have hcontra := hp j'
        rw [List.isPrefixOf_iff_prefix.mpr hpre2] at hcontra
        cases hcontra
      · have heq : btL = (p ++ ['\n']).drop j' :=
          hpre.eq_of_length (by simp [btL, List.length_drop]; omega)
        have hlast : ((p ++ ['\n']).drop j').getLast? = some '\n' := by
          rw [getLast?_drop_own (by simp; omega), List.getLast?_concat]
        rw [← heq] at hlast
        injection hlast with hc
        exact absurd hc (by decide)

/-- The fence occurs nowhere before the end of front ++ fence. -/
theorem bt_min_in_front {p : List Char}
    (hp : ∀ j, btL.isPrefixOf (p.drop j) = false) :
    ∀ j, j < ('\n' :: (p ++ ['\n'])).length →
      btL.isPrefixOf ((('\n' :: (p ++ ['\n'])) ++ btL).drop j) = false := by
  intro j hj
  have hflen : ('\n' :: (p ++ ['\n'])).length = p.length + 2 := by simp
  rw [hflen] at hj
  cases hx : btL.isPrefixOf ((('\n' :: (p ++ ['\n'])) ++ btL).drop j)
  · rfl
  · exfalso
    have hpre : btL <+: ((('\n' :: (p ++ ['\n'])) ++ btL).drop j) :=
      List.isPrefixOf_iff_prefix.mp hx
    by_cases hfit : j + 3 ≤ p.length + 2
    · rw [List.drop_append_of_le_length (by rw [hflen]; omega)] at hpre
      have hpre2 : btL <+: ('\n' :: (p ++ ['\n'])).drop j := by
        rw [List.prefix_iff_eq_take] at hpre ⊢
        rwa [List.take_append_of_le_length
          (by simp [btL, List.length_drop]; omega)] at hpre
      have hcontra := bt_not_in_wrap hp j
      rw [List.isPrefixOf_iff_prefix.mpr hpre2] at hcontra
      cases hcontra
    · have e1 : btL[('\n' :: (p ++ ['\n'])).length - 1 - j]?
          = ((('\n' :: (p ++ ['\n'])) ++ btL).drop j)[('\n' :: (p ++ ['\n'])).length - 1 - j]? := by
        rw [List.prefix_iff_eq_take] at hpre
        nth_rewrite 1 [hpre]
        rw [List.getElem?_take]
        rw [if_pos (by rw [hflen]; simp [btL]; omega)]
      have e2 : ((('\n' :: (p ++ ['\n'])) ++ btL).drop j)[('\n' :: (p ++ ['\n'])).length - 1 - j]?
          = (('\n' :: (p ++ ['\n'])) ++ btL)[('\n' :: (p ++ ['\n'])).length - 1]? := by
        rw [List.getElem?_drop]
        congr 1
        rw [hflen]
        omega
      have e3 : (('\n' :: (p ++ ['\n'])) ++ btL)[('\n' :: (p ++ ['\n'])).length - 1]?
          = ('\n' :: (p ++ ['\n']))[('\n' :: (p ++ ['\n'])).length - 1]? := by
        rw [List.getElem?_append]
        rw [if_pos (by rw [hflen]; omega)]
      have e4 : ('\n' :: (p ++ ['\n']))[('\n' :: (p ++ ['\n'])).length - 1]? = some '\n' := by
        rw [← List.getLast?_eq_getElem?]
        rw [show ('\n' :: (p ++ ['\n']) : List Char) = ('\n' :: p) ++ ['\n'] by simp]
        exact List.getLast?_concat _
      have e5 : btL[('\n' :: (p ++ ['\n'])).length - 1 - j]? = some '\n' := by
        rw [e1, e2, e3, e4]
      have hk : ('\n' :: (p ++ ['\n'])).length - 1 - j < 3 := by
        rw [hflen]
        omega
      generalize hgen : ('\n' :: (p ++ ['\n'])).length - 1 - j = k at e5 hk
      interval_cases k <;> simp [btL] at e5

/-- In front ++ fence, the first fence occurrence is exactly at the end. -/
theorem findSub_front_bt {p : List Char}
    (hp : ∀ j, btL.isPrefixOf (p.drop j) = false) :
    findSub (('\n' :: (p ++ ['\n'])) ++ btL) btL
      = some ('\n' :: (p ++ ['\n'])).length := by
  apply findSub_eq_some
  · rw [List.drop_left]
    have h := isPrefixOf_append_self btL []
    rwa [List.append_nil] at h
  · exact fun j hj => bt_min_in_front hp j hj

/-- No json-tagged fence occurs in front ++ fence. -/
theorem findSub_front_bj {p : List Char}
    (hp : ∀ j, btL.isPrefixOf (p.drop j) = false) :
    findSub (('\n' :: (p ++ ['\n'])) ++ btL) bjL = none := by
  apply findSub_eq_none
  intro j
  cases hx : bjL.isPrefixOf ((('\n' :: (p ++ ['\n'])) ++ btL).drop j)
  · rfl
  · exfalso
    have hpre : bjL <+: ((('\n' :: (p ++ ['\n'])) ++ btL).drop j) :=
      List.isPrefixOf_iff_prefix.mp hx
    by_cases hj : j < ('\n' :: (p ++ ['\n'])).length
    · have hbt : btL <+: ((('\n' :: (p ++ ['\n'])) ++ btL).drop j) :=
        List.IsPrefix.trans
          (show btL <+: bjL from List.prefix_iff_eq_take.mpr rfl) hpre
      have hcontra := bt_min_in_front hp j hj
      rw [List.isPrefixOf_iff_prefix.mpr hbt] at hcontra
      cases hcontra
    · have hlen := hpre.length_le
      simp [bjL, btL, List.length_drop] at hlen
      simp at hj
      omega

/-- No json-tagged fence occurs in a payload with no fence at all. -/
theorem findSub_bj_of_bt_none {p : List Char}
    (hp : ∀ j, btL.isPrefixOf (p.drop j) = false) :
    findSub p bjL = none := by
  apply findSub_eq_none
  intro j
  cases hx : bjL.isPrefixOf (p.drop j)
  · rfl
  · exfalso
    have hpre := List.isPrefixOf_iff_prefix.mp hx
    have hbt : btL <+: p.drop j :=
      List.IsPrefix.trans
        (show btL <+: bjL from List.prefix_iff_eq_take.mpr rfl) hpre
    have hcontra := hp j
    rw [List.isPrefixOf_iff_prefix.mpr hbt] at hcontra
    cases hcontra

/-- No json-tagged fence occurs in fence ++ front ++ fence. -/
theorem findSub_bare_bj {p : List Char}
    (hp : ∀ j, btL.isPrefixOf (p.drop j) = false) :
    findSub (btL ++ (('\n' :: (p ++ ['\n'])) ++ btL)) bjL = none := by
  apply findSub_eq_none
  intro j
  by_cases hj3 : 3 ≤ j
  · obtain ⟨k, hk⟩ : ∃ k, j = btL.length + k := ⟨j - 3, by simp [btL]; omega⟩
    subst hk
    rw [List.drop_append]
    exact findSub_none_mem (findSub_front_bj hp) k
  · cases hx : bjL.isPrefixOf ((btL ++ (('\n' :: (p ++ ['\n'])) ++ btL)).drop j)
    · rfl
    · exfalso
      have hpre := List.isPrefixOf_iff_prefix.mp hx
      have e1 : bjL[3 - j]?
          = ((btL ++ (('\n' :: (p ++ ['\n'])) ++ btL)).drop j)[3 - j]? := by
        rw [List.prefix_iff_eq_take] at hpre
        nth_rewrite 1 [hpre]
        rw [List.getElem?_take]
        rw [if_pos (by simp [bjL]; omega)]
      have e2 : ((btL ++ (('\n' :: (p ++ ['\n'])) ++ btL)).drop j)[3 - j]?
          = (btL ++ (('\n' :: (p ++ ['\n'])) ++ btL))[3]? := by
        rw [List.getElem?_drop]
        congr 1
        omega
      have e3 : (btL ++ (('\n' :: (p ++ ['\n'])) ++ btL))[3]? = some '\n' := by
        rw [List.getElem?_append_right (by simp [btL])]
        simp [btL]
      have e5 : bjL[3 - j]? = some '\n' := by rw [e1, e2, e3]
      interval_cases j <;> simp [bjL] at e5

/-- split with no match keeps the whole list. -/
theorem splitOnSubF_none {fuel : Nat} {l pat : List Char}
    (h : findSub l pat = none) : splitOnSubF fuel l pat = [l] := by
  cases fuel with
  | zero => rfl
  | succ f => simp only [splitOnSubF, h]

/-- split steps past the first match. -/
theorem splitOnSubF_some {fuel : Nat} {l pat : List Char} {i : Nat}
    (h : findSub l pat = some i) :
    splitOnSubF (fuel + 1) l pat
      = l.take i :: splitOnSubF fuel (l.drop (i + pat.length)) pat := by
  simp only [splitOnSubF, h]

/-- split steps past the first match (any positive fuel). -/
theorem splitOnSubF_some2 {fuel : Nat} (hf : fuel ≠ 0) {l pat : List Char}
    {i : Nat} (h : findSub l pat = some i) :
    splitOnSubF fuel l pat
      = l.take i :: splitOnSubF (fuel - 1) (l.drop (i + pat.length)) pat := by
  obtain ⟨g, rfl⟩ : ∃ g, fuel = g + 1 := ⟨fuel - 1, by omega⟩
  simp only [splitOnSubF, h, Nat.add_sub_cancel]

/-- Wrapping in single newlines does not change the trim. -/
theorem trimChars_nl_wrap (p : List Char) :
    trimChars ('\n' :: (p ++ ['\n'])) = trimChars p := by
  rw [show ('\n' :: (p ++ ['\n']) : List Char) = ['\n'] ++ p ++ ['\n'] by simp]
  exact trimChars_wrap (by decide) (by decide)

/-- parse_program's extraction on content with no fence marker at all:
plain trim. -/
theorem extract_raw {p : List Char} (hbt : findSub p btL = none) :
    extract_json_str p = trimChars p := by
  have hbj : findSub p bjL = none := findSub_bj_of_bt_none (findSub_none_mem hbt)
  unfold extract_json_str
  rw [show ("```json".data : List Char) = bjL from rfl,
      show ("```".data : List Char) = btL from rfl]
  rw [show containsSub p bjL = false from by rw [containsSub, hbj]; rfl]
  rw [show containsSub p btL = false from by rw [containsSub, hbt]; rfl]
  rw [if_neg Bool.false_ne_true, if_neg Bool.false_ne_true]

/-- parse_program's extraction on a json-tagged fenced block: the
payload, trimmed. -/
theorem extract_json_fence {p : List Char} (hbt : findSub p btL = none) :
    extract_json_str (bjL ++ ('\n' :: (p ++ ('\n' :: btL)))) = trimChars p := by
  have hp := findSub_none_mem hbt
  rw [show (bjL ++ ('\n' :: (p ++ ('\n' :: btL))) : List Char)
      = bjL ++ (('\n' :: (p ++ ['\n'])) ++ btL) by simp]
  have hfw : findSub (bjL ++ (('\n' :: (p ++ ['\n'])) ++ btL)) bjL = some 0 :=
    findSub_of_prefix (isPrefixOf_append_self bjL _)
  have hc1 : containsSub (bjL ++ (('\n' :: (p ++ ['\n'])) ++ btL)) bjL = true := by
    rw [containsSub, hfw]; rfl
  have hfsbj : findSub (('\n' :: (p ++ ['\n'])) ++ btL) bjL = none :=
    findSub_front_bj hp
  have hfsbt : findSub (('\n' :: (p ++ ['\n'])) ++ btL) btL
      = some ('\n' :: (p ++ ['\n'])).length := findSub_front_bt hp
  have hsplit1 : splitOnSub (bjL ++ (('\n' :: (p ++ ['\n'])) ++ btL)) bjL
      = [[], ('\n' :: (p ++ ['\n'])) ++ btL] := by
    rw [splitOnSub, splitOnSubF_some hfw, List.take_zero, Nat.zero_add,
        List.drop_left, splitOnSubF_none hfsbj]
  have hsplit2 : (splitOnSub (('\n' :: (p ++ ['\n'])) ++ btL) btL).head?
      = some ('\n' :: (p ++ ['\n'])) := by
    rw [splitOnSub, splitOnSubF_some hfsbt, List.head?_cons, List.take_left]
  unfold extract_json_str
  rw [show ("```json".data : List Char) = bjL from rfl,
      show ("```".data : List Char) = btL from rfl]
  simp only [hc1, ite_true, hsplit1, hsplit2, List.get?_cons_succ,
    List.get?_cons_zero, trimChars_nl_wrap]

/-- parse_program's extraction on a bare fenced block: the payload,
trimmed. -/
theorem extract_bare_fence {p : List Char} (hbt : findSub p btL = none) :
    extract_json_str (btL ++ ('\n' :: (p ++ ('\n' :: btL)))) = trimChars p := by
  have hp := findSub_none_mem hbt
  rw [show (btL ++ ('\n' :: (p ++ ('\n' :: btL))) : List Char)
      = btL ++ (('\n' :: (p ++ ['\n'])) ++ btL) by simp]
  have hfbj : findSub (btL ++ (('\n' :: (p ++ ['\n'])) ++ btL)) bjL = none :=
    findSub_bare_bj hp
  have hcbj : containsSub (btL ++ (('\n' :: (p ++ ['\n'])) ++ btL)) bjL = false := by
    rw [containsSub, hfbj]; rfl
  have hfw : findSub (btL ++ (('\n' :: (p ++ ['\n'])) ++ btL)) btL = some 0 :=
    findSub_of_prefix (isPrefixOf_append_self btL _)
  have hcbt : containsSub (btL ++ (('\n' :: (p ++ ['\n'])) ++ btL)) btL = true := by
    rw [containsSub, hfw]; rfl
  have hfsbt : findSub (('\n' :: (p ++ ['\n'])) ++ btL) btL
      = some ('\n' :: (p ++ ['\n'])).length := findSub_front_bt hp
  have hsplit : splitOnSub (btL ++ (('\n' :: (p ++ ['\n'])) ++ btL)) btL
      = [[], '\n' :: (p ++ ['\n']), []] := by
    rw [splitOnSub, splitOnSubF_some hfw, List.take_zero, Nat.zero_add,
        List.drop_left]
    rw [splitOnSubF_some2 (by simp [btL]) hfsbt, List.take_left]
    rw [show ('\n' :: (p ++ ['\n'])).length + btL.length
        = ((('\n' :: (p ++ ['\n'])) ++ btL)).length from by simp; omega]
    rw [List.drop_length]
    rw [splitOnSubF_none (show findSub [] btL = none from rfl)]
  unfold extract_json_str
  rw [show ("```json".data : List Char) = bjL from rfl,
      show ("```".data : List Char) = btL from rfl]
  simp only [hcbj, hcbt, Bool.false_eq_true, ite_false, ite_true, hsplit,
    List.get?_cons_succ, List.get?_cons_zero, trimChars_nl_wrap]


/-- C5 as amended. Program parsing tolerance in the orchestrator: for
every program JSON p that serde_json::from_str::<Program> accepts, and
that contains no triple-backtick (a fence marker inside p would make the
extraction cut at it), parse_program succeeds on the raw string p, on p
wrapped in a newline-separated json-tagged fence, and on p wrapped in a
newline-separated bare fence (taking the first fenced block); and for
every input whose extracted text is not valid program JSON it returns an
error that echoes the extracted content. -/
theorem parse_program_tolerance (p : String) (pr : Program)
    (hp : from_str_program p = some pr)
    (hnf : containsSub p.data ("```".data) = false) :
    parse_program p = .ok pr
    ∧ parse_program ("```json\n" ++ p ++ "\n```") = .ok pr
    ∧ parse_program ("```\n" ++ p ++ "\n```") = .ok pr
    ∧ ∀ q : String,
        (jsonFromChars (extract_json_str q.data)).bind decodeProgram = none →
        parse_program q = .error (String.mk (extract_json_str q.data)) := by
  have hbt : findSub p.data btL = none := by
    rw [containsSub, show ("```".data : List Char) = btL from rfl] at hnf
    cases hx : findSub p.data btL
    · rfl
    · rw [hx] at hnf
      cases hnf
  obtain ⟨jv, hjv, hdec⟩ :
      ∃ jv, jsonFromChars p.data = some jv ∧ decodeProgram jv = some pr := by
    unfold from_str_program at hp
    cases hx : jsonFromChars p.data with
    | none => rw [hx] at hp; cases hp
    | some jv => rw [hx] at hp; exact ⟨jv, rfl, hp⟩
  have htrim : jsonFromChars (trimChars p.data) = some jv := jsonFromChars_trim hjv
  have hraw : parse_program p = .ok pr := by
    unfold parse_program
    rw [extract_raw hbt, htrim]
    simp [hdec]
  have hd1 : ("```json\n" ++ p ++ "\n```").data
      = bjL ++ ('\n' :: (p.data ++ ('\n' :: btL))) := by
    rw [String.data_append, String.data_append,
        show ("```json\n".data : List Char) = bjL ++ ['\n'] from rfl,
        show ("\n```".data : List Char) = '\n' :: btL from rfl]
    simp
  have hjson : parse_program ("```json\n" ++ p ++ "\n```") = .ok pr := by
    unfold parse_program
    rw [hd1, extract_json_fence hbt, htrim]
    simp [hdec]
  have hd2 : ("```\n" ++ p ++ "\n```").data
      = btL ++ ('\n' :: (p.data ++ ('\n' :: btL))) := by
    rw [String.data_append, String.data_append,
        show ("```\n".data : List Char) = btL ++ ['\n'] from rfl,
        show ("\n```".data : List Char) = '\n' :: btL from rfl]
    simp
  have hbare : parse_program ("```\n" ++ p ++ "\n```") = .ok pr := by
    unfold parse_program
    rw [hd2, extract_bare_fence hbt, htrim]
    simp [hdec]
  refine ⟨hraw, hjson, hbare, ?_⟩
  intro q hq
  unfold parse_program
  rw [hq]

/-- Witness: parse_program accepts a concrete raw program JSON. -/
theorem parse_program_tolerance_witness :
    parse_program "\x7b\"id\":\"a\",\"name\":\"b\",\"code\":[]\x7d"
      = .ok ⟨"a", "b", none, [], none⟩ :=
  (parse_program_tolerance "\x7b\"id\":\"a\",\"name\":\"b\",\"code\":[]\x7d"
    ⟨"a", "b", none, [], none⟩ rfl rfl).1

end LLCraft
